import Mathlib

/-!  Verification development for the NebulaBayes regular-grid resampling
engine: `RegularGridResampler` and the interpolation pipeline in
`NB1_Process_grids.py`.  The code is shallowly embedded over exact rational
arithmetic; numpy arrays become Lean lists, fallible numpy operations
(out-of-range indexing) become `Option`, and the constructor's `raise`
statements become an `Except` error type. -/

namespace NB

/-- `np.diff`: adjacent differences, `(npDiff xs)[j] = xs[j+1] - xs[j]`. -/
def npDiff (xs : List ℚ) : List ℚ := List.zipWith (fun a b => b - a) xs xs.tail

/-- The constructor's validity check `not np.any(np.diff(p) <= 0)`:
every adjacent step is positive (strictly ascending, hence no duplicates). -/
def ascendingB (p : List ℚ) : Bool := (npDiff p).all (fun d => decide (0 < d))

/-- `np.linspace a b n` (with endpoint included), in exact arithmetic. -/
def linspace (a b : ℚ) (n : ℕ) : List ℚ :=
  if n = 0 then []
  else if n = 1 then [a]
  else (List.range n).map (fun (i : ℕ) => a + (b - a) * (i : ℚ) / ((n : ℚ) - 1))

/-- `np.clip` on an integer: `min (max x lo) hi` (upper bound applied last,
matching numpy when `lo > hi`). -/
def clipZ (x lo hi : ℤ) : ℤ := min (max x lo) hi

/-- `np.searchsorted(p, v)` with side `left` on a sorted array:
the number of entries strictly below `v`. -/
def countLt (p : List ℚ) (v : ℚ) : ℕ := p.countP (fun x => decide (x < v))

/-- The stored lower-edge index of the resampler:
`np.clip(np.searchsorted(p_in, v) - 1, 0, p_in.size - 2)`. -/
def jIdx (p : List ℚ) (v : ℚ) : ℤ :=
  clipZ ((countLt p v : ℤ) - 1) 0 ((p.length : ℤ) - 2)

/-- Closed form of the stored normalised distance at one output value:
`(v - p_in[j]) / (p_in[j+1] - p_in[j])` at the stored lower-edge index `j`
(a derived reading of the same vectorised computation in `__init__`). -/
def normDist (p : List ℚ) (v : ℚ) : ℚ :=
  (v - p.getD (jIdx p v).toNat 0) /
    (p.getD ((jIdx p v).toNat + 1) 0 - p.getD (jIdx p v).toNat 0)

/-- numpy 1-D integer indexing `xs[i]`: a negative index wraps once from the
end; an index outside `[-len, len)` is an `IndexError` (`none`). -/
def npGet (xs : List ℚ) (i : ℤ) : Option ℚ :=
  if 0 ≤ i ∧ i < (xs.length : ℤ) then xs.get? i.toNat
  else if -(xs.length : ℤ) ≤ i ∧ i < 0 then xs.get? ((xs.length : ℤ) + i).toNat
  else none

/-- Elementwise `Option`-valued map over a list, failing fast
(the shape `mapM` takes in this development). -/
def omap {α β : Type _} (f : α → Option β) : List α → Option (List β)
  | [] => some []
  | x :: xs => do
    let y ← f x
    let ys ← omap f xs
    pure (y :: ys)

/-- Per-axis precomputation from `RegularGridResampler.__init__`:
`out_points = np.linspace(p[0], p[-1], n_out)`, then
`i_vec = np.clip(np.searchsorted(p_in, p_out) - 1, 0, p_in.size - 2)` and
`norm_distances = (p_out - p_in[i_vec]) / np.diff(p_in)[i_vec]`.
The `head?`, `getLast?` and `npGet` accesses model the numpy `IndexError`
raised on axes with fewer than the required number of points. -/
def perAxis (p_in : List ℚ) (n_out : ℕ) :
    Option (List ℚ × List ℤ × List ℚ) := do
  let a ← p_in.head?
  let b ← p_in.getLast?
  let p_out := linspace a b n_out
  let i_vec := p_out.map (jIdx p_in)
  let diffs := npDiff p_in
  let nds ← omap (fun vi => do
      let lo ← npGet p_in vi.2
      let d ← npGet diffs vi.2
      pure ((vi.1 - lo) / d)) (p_out.zip i_vec)
  pure (p_out, i_vec, nds)

/-- The errors `RegularGridResampler.__init__` can raise.  The three
`config` constructors are the constructor's explicit `ValueError`s (the
spec's `ConfigurationError`); `indexErr` is a numpy `IndexError` escaping
from the precomputation (e.g. an input axis with fewer than 2 points, or a
zero-dimensional grid hitting `arrays[0]` inside `_cartesian_prod`). -/
inductive InitError : Type
  | configAscending : InitError
  | configNdim : InitError
  | configOutLen : InitError
  | indexErr : InitError
deriving DecidableEq

/-- `e.isConfig` holds for the explicit `ValueError`s of the constructor
(the spec's `ConfigurationError`) but not for an escaping `IndexError`. -/
def InitError.isConfig : InitError → Bool
  | .indexErr => false
  | _ => true

/-- The precomputed state of a `RegularGridResampler`: the input axes, the
generated output axes, and per axis the lower-edge indices and normalised
distances.  The per-edge weight vectors and gather indices are recovered by
`weightsVec` and `gatherRow` below. -/
structure Resampler : Type where
  in_points : List (List ℚ)
  out_points : List (List ℚ)
  lower_edge_inds : List (List ℤ)
  norm_distances : List (List ℚ)
deriving DecidableEq

/-- `RegularGridResampler.__init__(in_points, out_shape)`: the validation
checks in source order (strictly-ascending axes, dimension count, output
lengths at least 2), then the per-axis precomputation.  A zero-dimensional
grid passes every check but `_find_weights` then evaluates
`_cartesian_prod([])`, whose `arrays[0]` raises `IndexError`. -/
def resamplerInit (ips : List (List ℚ)) (out_shape : List ℕ) :
    Except InitError Resampler :=
  if ¬ ips.all ascendingB then .error .configAscending
  else if out_shape.length ≠ ips.length then .error .configNdim
  else if ¬ out_shape.all (fun n => decide (2 ≤ n)) then .error .configOutLen
  else
    match omap (fun pn => perAxis pn.1 pn.2) (ips.zip out_shape) with
    | none => .error .indexErr
    | some triples =>
      match ips with
      | [] => .error .indexErr
      | _ :: _ => .ok { in_points := ips,
                        out_points := triples.map (fun t => t.1),
                        lower_edge_inds := triples.map (fun t => t.2.1),
                        norm_distances := triples.map (fun t => t.2.2) }

/-- The recursive cartesian product `RegularGridResampler._cartesian_prod`:
one row per combination, the first array varying slowest and the last array
fastest (the block structure `out[:,0] = np.repeat(arrays[0], m)` followed by
copies of the recursive product of the remaining arrays). -/
def cartesianProd {α : Type _} : List (List α) → List (List α)
  | [] => [[]]
  | a :: rest => a.flatMap (fun x => (cartesianProd rest).map (fun row => x :: row))

/-- `itertools.product(*[[0,1]] * n)`: the `2^n` edge keys, first coordinate
varying slowest (`false` = lower edge, `true` = upper edge). -/
def tuples : ℕ → List (List Bool)
  | 0 => [[]]
  | n + 1 => [false, true].flatMap (fun b => (tuples n).map (fun js => b :: js))

/-- The combined weight of one edge at one output point, from
`_find_weights`: the product over dimensions of the upper-edge weight
`norm_distance` (when the edge key is 1) or the lower-edge weight
`1 - norm_distance` (when it is 0). -/
def edgeWeightRow (js : List Bool) (ts : List ℚ) : ℚ :=
  (List.zipWith (fun j t => if j then t else 1 - t) js ts).prod

/-- The stored weight vector for one edge: `_find_weights` evaluates the
edge weight at every row of the cartesian product of the per-axis
normalised-distance vectors. -/
def weightsVec (R : Resampler) (js : List Bool) : List ℚ :=
  (cartesianProd R.norm_distances).map (edgeWeightRow js)

/-- The gather (fancy) index tuple of one edge at one output point:
`tuple(a + j for j, a in zip(all_j, fancy_inds_lower))`. -/
def gatherRow (js : List Bool) (is : List ℤ) : List ℤ :=
  List.zipWith (fun j i => i + (if j then (1 : ℤ) else 0)) js is

/-- A dense n-dimensional numpy array: a shape and its row-major flat data
(`data.length = shape.prod` for a well-formed array). -/
structure NDArr : Type where
  shape : List ℕ
  data : List ℚ
deriving DecidableEq

/-- numpy index normalisation along one axis of extent `m`: negative
indices wrap once, anything outside `[-m, m)` is an `IndexError`. -/
def npWrap (m : ℕ) (i : ℤ) : Option ℕ :=
  if 0 ≤ i ∧ i < (m : ℤ) then some i.toNat
  else if -(m : ℤ) ≤ i ∧ i < 0 then some ((m : ℤ) + i).toNat
  else none

/-- Row-major flat position of a (signed) multi-index in an array of the
given shape, `none` on any out-of-range component. -/
def flatIdx : List ℕ → List ℤ → Option ℕ
  | [], [] => some 0
  | m :: ms, i :: is => do
    let k ← npWrap m i
    let r ← flatIdx ms is
    pure (k * ms.prod + r)
  | _, _ => none

/-- Row-major flat position of an (unsigned, in-range) multi-index:
the flattening order shared by `_cartesian_prod` and `reshape`. -/
def flatIdxNat : List ℕ → List ℕ → ℕ
  | _ :: ms, i :: is => i * ms.prod + flatIdxNat ms is
  | _, _ => 0

/-- The row-major digits of a flat position `r` in an array of the given
shape (the inverse of `flatIdxNat` on in-range input). -/
def digits : List ℕ → ℕ → List ℕ
  | [], _ => []
  | _ :: ms, r => (r / ms.prod) :: digits ms (r % ms.prod)

/-- n-dimensional element access `A[i1, ..., in]` with numpy index
semantics in every dimension. -/
def ndGet (A : NDArr) (multi : List ℤ) : Option ℚ :=
  (flatIdx A.shape multi).bind (fun k => A.data.get? k)

/-- The `in_shape` stored by the resampler. -/
def inShape (R : Resampler) : List ℕ := R.in_points.map List.length

/-- The number of grid dimensions. -/
def ndimR (R : Resampler) : ℕ := R.in_points.length

/-- One entry per flat output point: its per-axis lower-edge indices and
normalised distances, in the shared cartesian-product flattening order. -/
def pointRows (R : Resampler) : List (List ℤ × List ℚ) :=
  (cartesianProd R.lower_edge_inds).zip (cartesianProd R.norm_distances)

/-- The interpolated value at one output point: the sum over the `2^ndim`
edges of (gathered field value) * (edge weight), exactly the accumulation
`out_values += in_grid_values[edge_fancy_inds] * edge_weights` restricted
to one flat position. -/
def pointOut (A : NDArr) (n : ℕ) (row : List ℤ × List ℚ) : Option ℚ :=
  (omap (fun js => (ndGet A (gatherRow js row.1)).map
      (fun c => c * edgeWeightRow js row.2)) (tuples n)).map List.sum

/-- The errors `RegularGridResampler.__call__` can raise: the explicit
shape-mismatch `ValueError`, or a numpy `IndexError` escaping from the
gather (shown below never to happen for a validly built resampler). -/
inductive ApplyError : Type
  | shapeMismatch : ApplyError
  | indexErr : ApplyError
deriving DecidableEq

/-- `RegularGridResampler.__call__(in_grid_values)`: reject a field whose
shape differs from the stored input shape, otherwise accumulate the edge
contributions for every output point and return the output axes together
with the flat output values (the final `reshape(out_shape)` is row-major,
i.e. flat position `flatIdxNat out_shape multi` holds the value at
`multi`). -/
def applyR (R : Resampler) (A : NDArr) :
    Except ApplyError (List (List ℚ) × List ℚ) :=
  if A.shape ≠ inShape R then .error .shapeMismatch
  else
    match omap (pointOut A (ndimR R)) (pointRows R) with
    | none => .error .indexErr
    | some out => .ok (R.out_points, out)

/-- The gathered corner values contributing to one output point. -/
def cornerVals (A : NDArr) (n : ℕ) (is : List ℤ) : List ℚ :=
  (tuples n).filterMap (fun js => ndGet A (gatherRow js is))

/-- `arr.min()` of a numpy array (`none` on an empty array). -/
def listMin : List ℚ → Option ℚ
  | [] => none
  | x :: xs => some (xs.foldl min x)

/-- `arr.max()` of a numpy array (`none` on an empty array). -/
def listMax : List ℚ → Option ℚ
  | [] => none
  | x :: xs => some (xs.foldl max x)

/-- The lower-edge index exactly as the spec words it (for refinement
comparison only, not a translation of the source): the largest `j` with
`axis_in[j] ≤ v`, clipped into `[0, len(axis_in) - 2]`. -/
def specLowerIdxLe (p : List ℚ) (v : ℚ) : ℤ :=
  clipZ ((p.countP (fun x => decide (x ≤ v)) : ℤ) - 1) 0 ((p.length : ℤ) - 2)

/-- `np.clip(a, 0., None)` elementwise: negative entries become zero. -/
def clipNonneg (xs : List ℚ) : List ℚ := xs.map (fun x => max x 0)

/-- The resampling portion of `interpolate_flux_arrays`: build one
`RegularGridResampler` from the raw parameter-value arrays and the
requested interpolated shape, resample every emission-line flux array with
it, then set negative values to zero (`np.clip(a, 0., None, out=a)`) in
every interpolated array before returning the dictionary. -/
def interpolate_flux_arrays {ι : Type _} (param_arrs : List (List ℚ))
    (interpd_shape : List ℕ) (raw_grids : List (ι × NDArr)) :
    Option (List (ι × List ℚ)) :=
  match resamplerInit param_arrs interpd_shape with
  | .error _ => none
  | .ok R =>
    (omap (fun g =>
        match applyR R g.2 with
        | .error _ => none
        | .ok out => some (g.1, out.2)) raw_grids).map
      (fun gs => gs.map (fun g => (g.1, clipNonneg g.2)))

/-! ### Lemmas about `omap` -/

@[simp] theorem omap_nil {α β : Type _} (f : α → Option β) : omap f [] = some [] := rfl

@[simp] theorem omap_cons {α β : Type _} (f : α → Option β) (x : α) (xs : List α) :
    omap f (x :: xs) =
      (f x).bind (fun y => (omap f xs).bind (fun ys => some (y :: ys))) := rfl

theorem omap_eq_some_of_forall {α β : Type _} {f : α → Option β} {g : α → β}
    {l : List α} (h : ∀ x ∈ l, f x = some (g x)) : omap f l = some (l.map g) := by
  induction l with
  | nil => rfl
  | cons x xs ih =>
    have hx := h x (List.mem_cons_self x xs)
    have hxs := ih (fun y hy => h y (List.mem_cons_of_mem x hy))
    simp [omap, hx, hxs]

theorem omap_length {α β : Type _} {f : α → Option β} {l : List α} {l' : List β}
    (h : omap f l = some l') : l'.length = l.length := by
  induction l generalizing l' with
  | nil =>
    simp only [omap_nil, Option.some.injEq] at h
    subst h; rfl
  | cons x xs ih =>
    simp only [omap_cons, Option.bind_eq_some] at h
    obtain ⟨y, _, ys, hys, hl'⟩ := h
    simp only [Option.some.injEq] at hl'
    simp [← hl', ih hys]

theorem omap_get? {α β : Type _} {f : α → Option β} {l : List α} {l' : List β}
    (h : omap f l = some l') :
    ∀ k x, l.get? k = some x → ∃ y, f x = some y ∧ l'.get? k = some y := by
  induction l generalizing l' with
  | nil => intro k x hx; simp at hx
  | cons a as ih =>
    simp only [omap_cons, Option.bind_eq_some] at h
    obtain ⟨y, hy, ys, hys, hl'⟩ := h
    simp only [Option.some.injEq] at hl'
    intro k x hx
    cases k with
    | zero =>
      simp only [List.get?] at hx
      obtain rfl : a = x := by simpa using hx
      exact ⟨y, hy, by simp [← hl']⟩
    | succ k =>
      simp only [List.get?] at hx
      obtain ⟨z, hz, hz'⟩ := ih hys k x hx
      refine ⟨z, hz, ?_⟩
      rw [← hl', List.get?_cons_succ]
      exact hz' 

theorem omap_get?_rev {α β : Type _} {f : α → Option β} {l : List α} {l' : List β}
    (h : omap f l = some l') :
    ∀ k y, l'.get? k = some y → ∃ x, l.get? k = some x ∧ f x = some y := by
  induction l generalizing l' with
  | nil =>
    simp only [omap_nil, Option.some.injEq] at h
    subst h; intro k y hy; simp at hy
  | cons a as ih =>
    simp only [omap_cons, Option.bind_eq_some] at h
    obtain ⟨z, hz, ys, hys, hl'⟩ := h
    simp only [Option.some.injEq] at hl'
    intro k y hy
    cases k with
    | zero =>
      rw [← hl'] at hy
      simp only [List.get?, Option.some.injEq] at hy
      exact ⟨a, rfl, by rw [hz, hy]⟩
    | succ k =>
      rw [← hl'] at hy
      simp only [List.get?] at hy
      obtain ⟨x, hx, hx'⟩ := ih hys k y hy
      exact ⟨x, by simpa using hx, hx'⟩

theorem omap_mem {α β : Type _} {f : α → Option β} {l : List α} {l' : List β}
    (h : omap f l = some l') :
    ∀ y ∈ l', ∃ x ∈ l, f x = some y := by
  intro y hy
  obtain ⟨k, hk⟩ := List.get?_of_mem hy
  obtain ⟨x, hx, hfx⟩ := omap_get?_rev h k y hk
  exact ⟨x, List.get?_mem hx, hfx⟩

/-! ### Lemmas about `cartesianProd` and `tuples` -/

theorem length_cartesianProd {α : Type _} (as : List (List α)) :
    (cartesianProd as).length = (as.map List.length).prod := by
  induction as with
  | nil => rfl
  | cons a rest ih =>
    rw [cartesianProd]
    induction a with
    | nil => simp
    | cons x a iha =>
      rw [List.flatMap_cons, List.length_append, iha]
      simp only [List.length_map, ih, List.map_cons, List.prod_cons,
        List.length_cons]
      ring

theorem mem_cartesianProd {α : Type _} {as : List (List α)} {row : List α}
    (h : row ∈ cartesianProd as) : List.Forall₂ (fun x a => x ∈ a) row as := by
  induction as generalizing row with
  | nil =>
    simp only [cartesianProd, List.mem_singleton] at h
    subst h; exact List.Forall₂.nil
  | cons a rest ih =>
    simp only [cartesianProd, List.mem_flatMap, List.mem_map] at h
    obtain ⟨x, hx, r, hr, rfl⟩ := h
    exact List.Forall₂.cons hx (ih hr)

theorem flatMap_get?_block {α β : Type _} {f : α → List β} {P : ℕ}
    (hP : ∀ x, (f x).length = P) :
    ∀ (l : List α) (i r : ℕ), i < l.length → r < P →
      (l.flatMap f).get? (i * P + r) = (l.get? i).bind (fun x => (f x).get? r) := by
  intro l
  induction l with
  | nil => intro i r hi _; simp at hi
  | cons x xs ih =>
    intro i r hi hr
    cases i with
    | zero =>
      have : (f x).length > r := by rw [hP]; exact hr
      simp only [List.flatMap_cons, Nat.zero_mul, Nat.zero_add]
      rw [List.get?_append this]
      simp
    | succ i =>
      have hlen : (f x).length ≤ (i + 1) * P + r := by
        rw [hP]
        calc P ≤ (i + 1) * P := Nat.le_mul_of_pos_left P (Nat.succ_pos i)
        _ ≤ (i + 1) * P + r := Nat.le_add_right _ _
      simp only [List.flatMap_cons]
      rw [List.get?_append_right hlen]
      have harith : (i + 1) * P + r - (f x).length = i * P + r := by
        rw [hP]; ring_nf; omega
      rw [harith]
      simpa using ih i r (Nat.lt_of_succ_lt_succ hi) hr

theorem cartesianProd_get? {α : Type _} :
    ∀ {as : List (List α)} {multi : List ℕ},
      List.Forall₂ (fun i a => i < List.length a) multi as →
      (cartesianProd as).get? (flatIdxNat (as.map List.length) multi) =
        omap (fun pa => pa.1.get? pa.2) (as.zip multi) := by
  intro as multi h
  induction h with
  | nil => rfl
  | @cons i a multi' rest hi _ ih =>
    have hP : ∀ x : α, ((cartesianProd rest).map (fun row => x :: row)).length =
        (rest.map List.length).prod := by
      intro x; simp [length_cartesianProd]
    have hflat : flatIdxNat ((a :: rest).map List.length) (i :: multi') =
        i * (rest.map List.length).prod + flatIdxNat (rest.map List.length) multi' := by
      simp [flatIdxNat]
    rw [hflat]
    have hrange : flatIdxNat (rest.map List.length) multi' <
        (rest.map List.length).prod := by
      clear hP hflat hi ih
      rename_i hfor
      induction hfor with
      | nil => simp [flatIdxNat]
      | @cons j b m' r' hj _ ih' =>
        have hbpos : 0 < (r'.map List.length).prod := lt_of_le_of_lt (Nat.zero_le _) ih'
        simp only [List.map_cons, flatIdxNat, List.prod_cons]
        calc j * (r'.map List.length).prod + flatIdxNat (r'.map List.length) m'
            < j * (r'.map List.length).prod + (r'.map List.length).prod := by
              exact Nat.add_lt_add_left ih' _
          _ = (j + 1) * (r'.map List.length).prod := by ring
          _ ≤ b.length * (r'.map List.length).prod :=
              Nat.mul_le_mul_right _ hj
    show (cartesianProd (a :: rest)).get? _ = _
    rw [cartesianProd]
    rw [flatMap_get?_block hP a i _ hi hrange]
    have hget : a.get? i = some (a.get ⟨i, hi⟩) := List.get?_eq_get hi
    rw [hget]
    simp only [Option.bind_some, Option.some_bind]
    rw [List.get?_map, ih]
    show Option.map _ _ = omap _ ((a, i) :: rest.zip multi')
    rw [omap]
    simp only [Option.bind_eq_bind, hget]
    cases homap : omap (fun pa => pa.1.get? pa.2) (rest.zip multi') <;> simp

theorem length_tuples (n : ℕ) : (tuples n).length = 2 ^ n := by
  induction n with
  | zero => rfl
  | succ n ih => simp [tuples, List.length_flatMap, ih, pow_succ]; ring

theorem length_of_mem_tuples {n : ℕ} {js : List Bool} (h : js ∈ tuples n) :
    js.length = n := by
  induction n generalizing js with
  | zero => simp only [tuples, List.mem_singleton] at h; simp [h]
  | succ n ih =>
    simp only [tuples, List.mem_flatMap, List.mem_map] at h
    obtain ⟨b, _, js', hjs', rfl⟩ := h
    simp [ih hjs']

/-- Partition of unity: at any point the `2^n` edge weights sum to 1. -/
theorem sum_edgeWeightRow (ts : List ℚ) :
    ((tuples ts.length).map (fun js => edgeWeightRow js ts)).sum = 1 := by
  induction ts with
  | nil => simp [tuples, edgeWeightRow]
  | cons t ts ih =>
    have h1 : ∀ (b : Bool),
        ((tuples ts.length).map
            ((fun js => edgeWeightRow js (t :: ts)) ∘ fun js => b :: js)).sum =
        (if b then t else 1 - t) *
          ((tuples ts.length).map (fun js => edgeWeightRow js ts)).sum := by
      intro b
      have h2 : (tuples ts.length).map
            ((fun js => edgeWeightRow js (t :: ts)) ∘ fun js => b :: js)
          = (tuples ts.length).map
            (fun js => (if b then t else 1 - t) * edgeWeightRow js ts) := by
        apply List.map_congr_left
        intro js _
        cases b <;> simp [Function.comp, edgeWeightRow]
      rw [h2, List.sum_map_mul_left]
    simp only [List.length_cons, tuples, List.flatMap_cons, List.flatMap_nil,
      List.map_append, List.map_map, List.sum_append, List.append_nil]
    rw [h1 false, h1 true, ih]
    simp

/-! ### Sorted-axis lemmas -/

theorem ascendingB_cons₂ (x y : ℚ) (ys : List ℚ) :
    ascendingB (x :: y :: ys) = (decide (0 < y - x) && ascendingB (y :: ys)) := rfl

theorem ascendingB_iff (p : List ℚ) :
    ascendingB p = true ↔ List.Chain' (· < ·) p := by
  induction p with
  | nil => simp [ascendingB, npDiff]
  | cons x xs ih =>
    cases xs with
    | nil => simp [ascendingB, npDiff]
    | cons y ys =>
      rw [ascendingB_cons₂, Bool.and_eq_true, List.chain'_cons, ih]
      simp [sub_pos]

theorem pairwise_of_ascendingB {p : List ℚ} (h : ascendingB p = true) :
    List.Pairwise (· < ·) p :=
  List.chain'_iff_pairwise.mp ((ascendingB_iff p).mp h)

theorem countLt_cons (a : ℚ) (as : List ℚ) (v : ℚ) :
    countLt (a :: as) v = countLt as v + if a < v then 1 else 0 := by
  rw [countLt, List.countP_cons]
  by_cases h : a < v
  · simp [h, countLt]
  · simp [h, countLt]

theorem count_spec_ge {p : List ℚ} (hp : List.Pairwise (· < ·) p) {v : ℚ} :
    ∀ i x, p.get? i = some x → countLt p v ≤ i → v ≤ x := by
  induction p with
  | nil => intro i x hx _; simp at hx
  | cons a as ih =>
    intro i x hx hc
    rw [countLt_cons] at hc
    by_cases hav : a < v
    · rw [if_pos hav] at hc
      cases i with
      | zero => omega
      | succ i =>
        exact ih hp.tail i x (by simpa using hx) (by omega)
    · cases i with
      | zero =>
        have hax : a = x := by simpa using hx
        subst hax
        exact not_lt.mp hav
      | succ i =>
        have hmem : x ∈ as := List.get?_mem (by simpa using hx)
        have hax : a < x := List.rel_of_pairwise_cons hp hmem
        exact le_of_lt (lt_of_le_of_lt (not_lt.mp hav) hax)

theorem count_spec_lt {p : List ℚ} (hp : List.Pairwise (· < ·) p) {v : ℚ} :
    ∀ i x, p.get? i = some x → i < countLt p v → x < v := by
  induction p with
  | nil => intro i x hx hc; simp [countLt] at hc
  | cons a as ih =>
    intro i x hx hc
    by_cases hav : a < v
    · cases i with
      | zero =>
        have hax : a = x := by simpa using hx
        subst hax; exact hav
      | succ i =>
        rw [countLt_cons, if_pos hav] at hc
        exact ih hp.tail i x (by simpa using hx) (by omega)
    · exfalso
      have h0 : countLt (a :: as) v = 0 := by
        rw [countLt, List.countP_eq_zero]
        intro b hb
        rcases List.mem_cons.mp hb with rfl | hbas
        · simpa using hav
        · have hab : a < b := List.rel_of_pairwise_cons hp hbas
          have hva : v ≤ a := not_lt.mp hav
          simp only [decide_eq_true_eq]
          exact not_lt.mpr (le_of_lt (lt_of_le_of_lt hva hab))
      omega

theorem countLt_le_length (p : List ℚ) (v : ℚ) : countLt p v ≤ p.length :=
  List.countP_le_length _

/-! ### `linspace` lemmas -/

theorem linspace_length (a b : ℚ) (n : ℕ) : (linspace a b n).length = n := by
  by_cases h0 : n = 0
  · rw [linspace, if_pos h0, h0]; rfl
  · by_cases h1 : n = 1
    · rw [linspace, if_neg h0, if_pos h1, h1]; rfl
    · rw [linspace, if_neg h0, if_neg h1, List.length_map, List.length_range]

theorem linspace_get? (a b : ℚ) {n i : ℕ} (hn : 2 ≤ n) (hi : i < n) :
    (linspace a b n).get? i = some (a + (b - a) * i / ((n : ℚ) - 1)) := by
  have h0 : ¬ n = 0 := by omega
  have h1 : ¬ n = 1 := by omega
  rw [linspace, if_neg h0, if_neg h1]
  simp [List.get?_eq_getElem?, List.getElem?_map, List.getElem?_range, hi]

theorem linspace_head (a b : ℚ) {n : ℕ} (hn : 2 ≤ n) :
    (linspace a b n).get? 0 = some a := by
  rw [linspace_get? a b hn (by omega)]
  norm_num

theorem linspace_last (a b : ℚ) {n : ℕ} (hn : 2 ≤ n) :
    (linspace a b n).get? (n - 1) = some b := by
  rw [linspace_get? a b hn (by omega)]
  have hne : ((n : ℚ) - 1) ≠ 0 := by
    have h2 : (1 : ℚ) < (n : ℚ) := by exact_mod_cast (show 1 < n by omega)
    exact sub_ne_zero.mpr (ne_of_gt h2)
  have hcast : ((n - 1 : ℕ) : ℚ) = (n : ℚ) - 1 := by
    have h1 : 1 ≤ n := by omega
    push_cast [h1]
    ring
  congr 1
  rw [hcast, mul_div_assoc, div_self hne, mul_one]
  ring

theorem linspace_bounds {a b : ℚ} (hab : a ≤ b) {n : ℕ} (hn : 2 ≤ n) :
    ∀ v ∈ linspace a b n, a ≤ v ∧ v ≤ b := by
  intro v hv
  have h0 : ¬ n = 0 := by omega
  have h1 : ¬ n = 1 := by omega
  rw [linspace, if_neg h0, if_neg h1] at hv
  simp only [List.mem_map, List.mem_range] at hv
  obtain ⟨i, hi, rfl⟩ := hv
  have hn1 : (0 : ℚ) < (n : ℚ) - 1 := by
    have h2 : (2 : ℚ) ≤ (n : ℚ) := by exact_mod_cast hn
    linarith
  constructor
  · have hnn : 0 ≤ (b - a) * i / ((n : ℚ) - 1) :=
      div_nonneg (mul_nonneg (sub_nonneg.mpr hab) (Nat.cast_nonneg i))
        (le_of_lt hn1)
    linarith
  · have hile : (i : ℚ) ≤ (n : ℚ) - 1 := by
      have hi' : (i : ℚ) + 1 ≤ (n : ℚ) := by exact_mod_cast Nat.succ_le_of_lt hi
      linarith
    have hle : (b - a) * i / ((n : ℚ) - 1) ≤ b - a := by
      rw [div_le_iff hn1]
      calc (b - a) * i ≤ (b - a) * ((n : ℚ) - 1) :=
            mul_le_mul_of_nonneg_left hile (sub_nonneg.mpr hab)
        _ = (b - a) * ((n : ℚ) - 1) := rfl
    linarith

/-! ### Lower-edge index characterisation -/

theorem jIdx_spec {p : List ℚ} (hp : List.Pairwise (· < ·) p)
    (hlen : 2 ≤ p.length) {a b v : ℚ} (ha : p.get? 0 = some a)
    (hb : p.get? (p.length - 1) = some b) (hav : a ≤ v) (hvb : v ≤ b) :
    ∃ (j : ℕ) (lo hi : ℚ),
      jIdx p v = (j : ℤ) ∧ j ≤ p.length - 2 ∧
      p.get? j = some lo ∧ p.get? (j + 1) = some hi ∧
      lo ≤ v ∧ v ≤ hi ∧ lo < hi ∧
      (∀ i x, p.get? i = some x → x < v → i ≤ j) ∧
      (j = 0 ∨ lo < v) := by
  have hcle : countLt p v ≤ p.length - 1 := by
    by_contra hcontra
    push_neg at hcontra
    have hblt : b < v :=
      count_spec_lt hp (p.length - 1) b hb hcontra
    linarith
  refine ⟨countLt p v - 1, ?_⟩
  have hjlt : countLt p v - 1 < p.length := by omega
  have hj1lt : countLt p v - 1 + 1 < p.length := by omega
  obtain ⟨lo, hlo⟩ : ∃ lo, p.get? (countLt p v - 1) = some lo := by
    rw [List.get?_eq_get hjlt]; exact ⟨_, rfl⟩
  obtain ⟨hi, hhi⟩ : ∃ hi, p.get? (countLt p v - 1 + 1) = some hi := by
    rw [List.get?_eq_get hj1lt]; exact ⟨_, rfl⟩
  refine ⟨lo, hi, ?_, by omega, hlo, hhi, ?_, ?_, ?_, ?_, ?_⟩
  · rw [jIdx, clipZ]
    omega
  · by_cases hc : countLt p v = 0
    · have h00 : countLt p v - 1 = 0 := by omega
      rw [h00] at hlo
      have hal : a = lo := Option.some_inj.mp (ha.symm.trans hlo)
      exact hal ▸ hav
    · exact le_of_lt (count_spec_lt hp _ lo hlo (by omega))
  · exact count_spec_ge hp _ hi hhi (by omega)
  · have := List.pairwise_iff_get.mp hp
      ⟨countLt p v - 1, hjlt⟩ ⟨countLt p v - 1 + 1, hj1lt⟩ (by simp)
    rw [List.get?_eq_get hjlt] at hlo
    rw [List.get?_eq_get hj1lt] at hhi
    have hlo' := (Option.some.injEq _ _).mp hlo
    have hhi' := (Option.some.injEq _ _).mp hhi
    rw [← hlo', ← hhi']
    exact this
  · intro i x hx hxv
    by_contra hcontra
    push_neg at hcontra
    have hci : countLt p v ≤ i := by omega
    have := count_spec_ge hp i x hx hci
    linarith
  · by_cases hc : countLt p v = 0
    · left; omega
    · right; exact count_spec_lt hp _ lo hlo (by omega)

/-! ### `npDiff`, `npGet` and `normDist` lemmas -/

theorem getD_of_get? {α : Type _} {l : List α} {n : ℕ} {x : α} (d : α)
    (h : l.get? n = some x) : l.getD n d = x := by
  induction l generalizing n with
  | nil => simp at h
  | cons a as ih =>
    cases n with
    | zero =>
      have hax : a = x := by simpa using h
      rw [List.getD_cons_zero, hax]
    | succ n =>
      rw [List.getD_cons_succ]
      exact ih (by simpa using h)

theorem npDiff_length (p : List ℚ) : (npDiff p).length = p.length - 1 := by
  rw [npDiff, List.length_zipWith]
  cases p with
  | nil => rfl
  | cons x xs => simp only [List.length_cons, List.tail_cons]; omega

theorem npDiff_get? {p : List ℚ} : ∀ {j : ℕ} {lo hi : ℚ},
    p.get? j = some lo → p.get? (j + 1) = some hi →
    (npDiff p).get? j = some (hi - lo) := by
  induction p with
  | nil => intro j lo hi hlo _; simp at hlo
  | cons x xs ih =>
    intro j lo hi hlo hhi
    cases xs with
    | nil =>
      cases j with
      | zero => simp at hhi
      | succ j => simp at hhi
    | cons y ys =>
      cases j with
      | zero =>
        have hx : x = lo := by simpa using hlo
        have hy : y = hi := by simpa using hhi
        subst hx; subst hy
        rfl
      | succ j =>
        have h1 : (npDiff (x :: y :: ys)).get? (j + 1)
            = (npDiff (y :: ys)).get? j := rfl
        rw [h1]
        exact ih (by simpa using hlo) (by simpa using hhi)

theorem npGet_natCast {xs : List ℚ} {j : ℕ} (hj : j < xs.length) :
    npGet xs (j : ℤ) = xs.get? j := by
  rw [npGet, if_pos]
  · simp
  · exact ⟨Int.natCast_nonneg j, by exact_mod_cast hj⟩

theorem normDist_eq_of {p : List ℚ} {v : ℚ} {j : ℕ} {lo hi : ℚ}
    (hj : jIdx p v = (j : ℤ)) (hlo : p.get? j = some lo)
    (hhi : p.get? (j + 1) = some hi) :
    normDist p v = (v - lo) / (hi - lo) := by
  rw [normDist, hj]
  simp only [Int.toNat_natCast]
  rw [getD_of_get? 0 hlo, getD_of_get? 0 hhi]

theorem normDist_bounds {p : List ℚ} (hp : ascendingB p = true)
    (hlen : 2 ≤ p.length) {a b v : ℚ} (ha : p.get? 0 = some a)
    (hb : p.get? (p.length - 1) = some b) (hav : a ≤ v) (hvb : v ≤ b) :
    0 ≤ normDist p v ∧ normDist p v ≤ 1 := by
  obtain ⟨j, lo, hi, hj, hjle, hlo, hhi, hlov, hvhi, hlohi, -, -⟩ :=
    jIdx_spec (pairwise_of_ascendingB hp) hlen ha hb hav hvb
  rw [normDist_eq_of hj hlo hhi]
  constructor
  · exact div_nonneg (by linarith) (by linarith)
  · rw [div_le_one (by linarith)]
    linarith

theorem head?_eq_get?₀ {α : Type _} (l : List α) : l.head? = l.get? 0 := by
  cases l <;> rfl

theorem getLast?_eq_get?_len {α : Type _} (l : List α) :
    l.getLast? = l.get? (l.length - 1) := by
  induction l with
  | nil => rfl
  | cons x xs ih =>
    cases xs with
    | nil => rfl
    | cons y ys =>
      rw [List.getLast?_cons_cons, ih]
      have h1 : (x :: y :: ys).length - 1 = ((y :: ys).length - 1) + 1 := by
        simp only [List.length_cons]; omega
      rw [h1, List.get?_cons_succ]

theorem head_lt_last_of_sorted {p : List ℚ} (hp : List.Pairwise (· < ·) p)
    (hlen : 2 ≤ p.length) {a b : ℚ} (ha : p.get? 0 = some a)
    (hb : p.get? (p.length - 1) = some b) : a < b := by
  have h0 : 0 < p.length := by omega
  have h1 : p.length - 1 < p.length := by omega
  have hfin : (⟨0, h0⟩ : Fin p.length) < ⟨p.length - 1, h1⟩ := by
    rw [Fin.mk_lt_mk]; omega
  have := List.pairwise_iff_get.mp hp ⟨0, h0⟩ ⟨p.length - 1, h1⟩ hfin
  rw [List.get?_eq_get h0] at ha
  rw [List.get?_eq_get h1] at hb
  have ha' := Option.some_inj.mp ha
  have hb' := Option.some_inj.mp hb
  rw [← ha', ← hb']
  exact this

/-! ### The per-axis precomputation on a valid axis -/

theorem perAxis_eq_of_valid {p : List ℚ} {n : ℕ} (hp : ascendingB p = true)
    (hlen : 2 ≤ p.length) (hn : 2 ≤ n) {a b : ℚ}
    (ha : p.get? 0 = some a) (hb : p.get? (p.length - 1) = some b) :
    perAxis p n = some (linspace a b n,
      (linspace a b n).map (jIdx p), (linspace a b n).map (normDist p)) := by
  have hpw := pairwise_of_ascendingB hp
  have hab : a < b := head_lt_last_of_sorted hpw hlen ha hb
  have hhead : p.head? = some a := by rw [head?_eq_get?₀]; exact ha
  have hlast : p.getLast? = some b := by rw [getLast?_eq_get?_len]; exact hb
  have hzip : (linspace a b n).zip ((linspace a b n).map (jIdx p))
      = (linspace a b n).map (fun v => (v, jIdx p v)) := by
    have := List.zip_map' id (jIdx p) (linspace a b n)
    simpa using this
  have homap : omap (fun vi => do
        let lo ← npGet p vi.2
        let d ← npGet (npDiff p) vi.2
        pure ((vi.1 - lo) / d))
      ((linspace a b n).map (fun v => (v, jIdx p v)))
      = some (((linspace a b n).map (fun v => (v, jIdx p v))).map
          (fun vi => normDist p vi.1)) := by
    apply omap_eq_some_of_forall
    intro vi hvi
    simp only [List.mem_map] at hvi
    obtain ⟨v, hv, rfl⟩ := hvi
    obtain ⟨hav, hvb⟩ := linspace_bounds (le_of_lt hab) hn v hv
    obtain ⟨j, lo, hi, hj, hjle, hlo, hhi, -, -, -, -, -⟩ :=
      jIdx_spec hpw hlen ha hb hav hvb
    have hjlen : j < p.length := by omega
    have hjdlen : j < (npDiff p).length := by rw [npDiff_length]; omega
    have hd : (npDiff p).get? j = some (hi - lo) := npDiff_get? hlo hhi
    simp only [hj, npGet_natCast hjlen, npGet_natCast hjdlen, hlo, hd,
      Option.bind_eq_bind, Option.some_bind]
    rw [normDist_eq_of hj hlo hhi]
    rfl
  rw [perAxis, hhead, hlast]
  show (omap (fun vi => do
        let lo ← npGet p vi.2
        let d ← npGet (npDiff p) vi.2
        pure ((vi.1 - lo) / d))
      ((linspace a b n).zip ((linspace a b n).map (jIdx p)))) >>= (fun nds =>
        some (linspace a b n, (linspace a b n).map (jIdx p), nds))
    = some (linspace a b n, (linspace a b n).map (jIdx p),
        (linspace a b n).map (normDist p))
  rw [hzip, homap, List.map_map]
  rfl

/-! ### Failure of the precomputation on degenerate axes -/

theorem perAxis_nil (n : ℕ) : perAxis [] n = none := rfl

theorem perAxis_single (x : ℚ) {n : ℕ} (hn : 2 ≤ n) : perAxis [x] n = none := by
  obtain ⟨rest, hrest⟩ : ∃ rest, linspace x x n = x :: rest := by
    have h := linspace_head x x hn
    cases hl : linspace x x n with
    | nil => rw [hl] at h; simp at h
    | cons y t =>
      rw [hl] at h
      simp only [List.get?] at h
      exact ⟨t, by rw [Option.some_inj.mp h]⟩
  have hj : jIdx [x] x = -1 := by
    have hc : countLt [x] x = 0 := by
      simp [countLt, List.countP_cons, lt_irrefl]
    rw [jIdx, hc, clipZ]
    norm_num
  have hf : ((npGet [x] (jIdx [x] x)).bind (fun lo =>
      (npGet (npDiff [x]) (jIdx [x] x)).bind (fun d =>
        some ((x - lo) / d)))) = none := by
    rw [hj]
    have h1 : npGet [x] (-1) = some x := by
      rw [npGet]
      norm_num
    have h2 : npGet (npDiff [x]) (-1) = none := by
      show npGet [] (-1) = none
      rw [npGet]
      norm_num
    rw [h1, h2]
    rfl
  rw [perAxis]
  show (omap (fun vi => do
        let lo ← npGet [x] vi.2
        let d ← npGet (npDiff [x]) vi.2
        pure ((vi.1 - lo) / d))
      ((linspace x x n).zip ((linspace x x n).map (jIdx [x])))) >>= (fun nds =>
        some (linspace x x n, (linspace x x n).map (jIdx [x]), nds))
    = none
  rw [hrest]
  show (omap _ ((x, jIdx [x] x) :: (rest.zip (rest.map (jIdx [x]))))) >>= _ = none
  rw [omap_cons]
  show ((((npGet [x] (jIdx [x] x)).bind (fun lo =>
      (npGet (npDiff [x]) (jIdx [x] x)).bind (fun d =>
        some ((x - lo) / d))))).bind _) >>= _ = none
  rw [hf]
  rfl

theorem perAxis_some_len2 {p : List ℚ} {n : ℕ} (hn : 2 ≤ n)
    {t : List ℚ × List ℤ × List ℚ} (h : perAxis p n = some t) : 2 ≤ p.length := by
  by_contra hc
  push_neg at hc
  match p, hc with
  | [], _ => rw [perAxis_nil] at h; exact Option.noConfusion h
  | [x], _ => rw [perAxis_single x hn] at h; exact Option.noConfusion h
  | x :: y :: r, hc => simp at hc; omega

/-! ### `resamplerInit` inversion -/

theorem zip_get?_some {α β : Type _} {l : List α} {l' : List β} :
    ∀ {k : ℕ} {x : α} {y : β}, l.get? k = some x → l'.get? k = some y →
      (l.zip l').get? k = some (x, y) := by
  induction l generalizing l' with
  | nil => intro k x y hx _; simp at hx
  | cons a as ih =>
    intro k x y hx hy
    cases l' with
    | nil => simp at hy
    | cons b bs =>
      cases k with
      | zero =>
        have hax : a = x := by simpa using hx
        have hby : b = y := by simpa using hy
        subst hax; subst hby; rfl
      | succ k =>
        show (as.zip bs).get? k = some (x, y)
        exact ih (by simpa using hx) (by simpa using hy)

theorem omap_isSome_of_forall {α β : Type _} {f : α → Option β} {l : List α}
    (h : ∀ x ∈ l, ∃ y, f x = some y) : ∃ l', omap f l = some l' := by
  induction l with
  | nil => exact ⟨[], rfl⟩
  | cons x xs ih =>
    obtain ⟨y, hy⟩ := h x (List.mem_cons_self x xs)
    obtain ⟨ys, hys⟩ := ih (fun z hz => h z (List.mem_cons_of_mem x hz))
    exact ⟨y :: ys, by rw [omap_cons, hy, hys]; rfl⟩

theorem resamplerInit_ok {ips : List (List ℚ)} {os : List ℕ} {R : Resampler}
    (h : resamplerInit ips os = .ok R) :
    R.in_points = ips ∧
    (∀ p ∈ ips, ascendingB p = true) ∧
    os.length = ips.length ∧
    (∀ n ∈ os, 2 ≤ n) ∧
    0 < ips.length ∧
    R.out_points.length = ips.length ∧
    R.lower_edge_inds.length = ips.length ∧
    R.norm_distances.length = ips.length ∧
    (∀ k p nn, ips.get? k = some p → os.get? k = some nn →
      ∃ out low nds, perAxis p nn = some (out, low, nds) ∧
        R.out_points.get? k = some out ∧
        R.lower_edge_inds.get? k = some low ∧
        R.norm_distances.get? k = some nds) := by
  rw [resamplerInit] at h
  split at h
  · exact Except.noConfusion h
  · split at h
    · exact Except.noConfusion h
    · split at h
      · exact Except.noConfusion h
      · rename_i hasc hndim hout
        split at h
        · exact Except.noConfusion h
        · rename_i triples homap
          split at h
          · exact Except.noConfusion h
          · rename_i x xs
            have hR := Except.ok.inj h
            have hall : ∀ p ∈ x :: xs, ascendingB p = true := by
              rw [not_not] at hasc
              exact fun p hp => List.all_eq_true.mp hasc p hp
            have hlen : os.length = (x :: xs).length := by
              rw [not_not] at hndim
              exact hndim
            have hos2 : ∀ n ∈ os, 2 ≤ n := by
              rw [not_not] at hout
              intro n hn
              have := List.all_eq_true.mp hout n hn
              simpa using this
            have hziplen : ((x :: xs).zip os).length = (x :: xs).length := by
              rw [List.length_zip, hlen, min_self]
            have htlen : triples.length = (x :: xs).length := by
              rw [omap_length homap, hziplen]
            refine ⟨by rw [← hR], hall, hlen, hos2, by simp,
              ?_, ?_, ?_, ?_⟩
            · rw [← hR]; simp [htlen]
            · rw [← hR]; simp [htlen]
            · rw [← hR]; simp [htlen]
            · intro k p nn hp hnn
              have hzk : ((x :: xs).zip os).get? k = some (p, nn) :=
                zip_get?_some hp hnn
              obtain ⟨t, ht, htk⟩ := omap_get? homap k (p, nn) hzk
              refine ⟨t.1, t.2.1, t.2.2, ht, ?_, ?_, ?_⟩
              · rw [← hR]; simp only [List.get?_map, htk]; rfl
              · rw [← hR]; simp only [List.get?_map, htk]; rfl
              · rw [← hR]; simp only [List.get?_map, htk]; rfl

theorem resamplerInit_ok_of_valid {ips : List (List ℚ)} {os : List ℕ}
    (h1 : ∀ p ∈ ips, ascendingB p = true ∧ 2 ≤ p.length)
    (h2 : os.length = ips.length) (h3 : ∀ n ∈ os, 2 ≤ n) (h4 : ips ≠ []) :
    ∃ R, resamplerInit ips os = .ok R := by
  have hsome : ∀ pn ∈ ips.zip os, ∃ t, perAxis pn.1 pn.2 = some t := by
    intro pn hpn
    obtain ⟨hpmem, hnmem⟩ := List.of_mem_zip hpn
    obtain ⟨hasc, hplen⟩ := h1 pn.1 hpmem
    have hn2 := h3 pn.2 hnmem
    have h0lt : 0 < pn.1.length := by omega
    have h1lt : pn.1.length - 1 < pn.1.length := by omega
    obtain ⟨a, ha⟩ : ∃ a, pn.1.get? 0 = some a := by
      rw [List.get?_eq_get h0lt]; exact ⟨_, rfl⟩
    obtain ⟨b, hb⟩ : ∃ b, pn.1.get? (pn.1.length - 1) = some b := by
      rw [List.get?_eq_get h1lt]; exact ⟨_, rfl⟩
    exact ⟨_, perAxis_eq_of_valid hasc hplen hn2 ha hb⟩
  obtain ⟨triples, htriples⟩ := omap_isSome_of_forall hsome
  match ips, h4 with
  | x :: xs, _ =>
    refine ⟨{ in_points := x :: xs,
              out_points := triples.map (fun t => t.1),
              lower_edge_inds := triples.map (fun t => t.2.1),
              norm_distances := triples.map (fun t => t.2.2) }, ?_⟩
    have hc1 : ¬¬ ((x :: xs).all ascendingB = true) := by
      rw [not_not, List.all_eq_true]
      exact fun p hp => (h1 p hp).1
    have hc2 : ¬ os.length ≠ (x :: xs).length := by
      rw [not_not]; exact h2
    have hc3 : ¬¬ (os.all (fun n => decide (2 ≤ n)) = true) := by
      rw [not_not, List.all_eq_true]
      intro n hn
      simpa using h3 n hn
    rw [resamplerInit, if_neg hc1, if_neg hc2, if_neg hc3, htriples]

/-! ### Flat indexing and `ndGet` -/

theorem flatIdxNat_lt {shape multi : List ℕ}
    (h : List.Forall₂ (fun i m => i < m) multi shape) :
    flatIdxNat shape multi < shape.prod := by
  induction h with
  | nil => simp [flatIdxNat]
  | @cons j m m' r' hj _ ih =>
    have hppos : 0 < r'.prod := lt_of_le_of_lt (Nat.zero_le _) ih
    simp only [flatIdxNat, List.prod_cons]
    calc j * r'.prod + flatIdxNat r' m' < j * r'.prod + r'.prod :=
          Nat.add_lt_add_left ih _
      _ = (j + 1) * r'.prod := by ring
      _ ≤ m * r'.prod := Nat.mul_le_mul_right _ hj

theorem npWrap_natCast {m j : ℕ} (hj : j < m) : npWrap m (j : ℤ) = some j := by
  rw [npWrap, if_pos]
  · simp
  · exact ⟨Int.natCast_nonneg j, by exact_mod_cast hj⟩

theorem flatIdx_natCast {shape multi : List ℕ}
    (h : List.Forall₂ (fun i m => i < m) multi shape) :
    flatIdx shape (multi.map (fun (i : ℕ) => (i : ℤ))) = some (flatIdxNat shape multi) := by
  induction h with
  | nil => rfl
  | @cons j m m' r' hj htail ih =>
    simp only [List.map_cons, flatIdx, npWrap_natCast hj, ih,
      Option.bind_eq_bind, Option.some_bind, flatIdxNat]
    rfl

theorem flatIdx_some {shape : List ℕ} {multi : List ℤ}
    (h : List.Forall₂ (fun (i : ℤ) (m : ℕ) => 0 ≤ i ∧ i < (m : ℤ)) multi shape) :
    ∃ k, flatIdx shape multi = some k ∧ k < shape.prod := by
  induction h with
  | nil => exact ⟨0, rfl, by simp⟩
  | @cons i m m' r' hi htail ih =>
    obtain ⟨k, hk, hklt⟩ := ih
    have hwrap : npWrap m i = some i.toNat := by
      rw [npWrap, if_pos hi]
    refine ⟨i.toNat * r'.prod + k, ?_, ?_⟩
    · simp only [flatIdx, hwrap, hk, Option.bind_eq_bind, Option.some_bind]
      rfl
    · have hlt : i.toNat < m := by omega
      have hppos : 0 < r'.prod := lt_of_le_of_lt (Nat.zero_le _) hklt
      simp only [List.prod_cons]
      calc i.toNat * r'.prod + k < i.toNat * r'.prod + r'.prod :=
            Nat.add_lt_add_left hklt _
        _ = (i.toNat + 1) * r'.prod := by ring
        _ ≤ m * r'.prod := Nat.mul_le_mul_right _ hlt

theorem ndGet_some {A : NDArr} (hwf : A.data.length = A.shape.prod)
    {multi : List ℤ}
    (h : List.Forall₂ (fun (i : ℤ) (m : ℕ) => 0 ≤ i ∧ i < (m : ℤ)) multi A.shape) :
    ∃ c, ndGet A multi = some c := by
  obtain ⟨k, hk, hklt⟩ := flatIdx_some h
  have hkd : k < A.data.length := by rw [hwf]; exact hklt
  obtain ⟨c, hc⟩ : ∃ c, A.data.get? k = some c := by
    rw [List.get?_eq_get hkd]; exact ⟨_, rfl⟩
  exact ⟨c, by rw [ndGet, hk]; exact hc⟩

theorem ndGet_natCast {A : NDArr} {multi : List ℕ}
    (h : List.Forall₂ (fun i m => i < m) multi A.shape) :
    ndGet A (multi.map (fun (i : ℕ) => (i : ℤ)))
      = A.data.get? (flatIdxNat A.shape multi) := by
  rw [ndGet, flatIdx_natCast h]
  rfl

/-! ### `digits`: inverting the row-major flattening -/

theorem digits_length (shape : List ℕ) (r : ℕ) :
    (digits shape r).length = shape.length := by
  induction shape generalizing r with
  | nil => rfl
  | cons m ms ih => simp [digits, ih]

theorem digits_forall₂ {shape : List ℕ} {r : ℕ} (h : r < shape.prod) :
    List.Forall₂ (fun i m => i < m) (digits shape r) shape := by
  induction shape generalizing r with
  | nil => exact List.Forall₂.nil
  | cons m ms ih =>
    rw [List.prod_cons] at h
    have hppos : 0 < ms.prod := by
      rcases Nat.eq_zero_or_pos ms.prod with h0 | h0
      · rw [h0, Nat.mul_zero] at h; omega
      · exact h0
    refine List.Forall₂.cons ?_ (ih (Nat.mod_lt r hppos))
    exact Nat.div_lt_of_lt_mul (Nat.mul_comm m ms.prod ▸ h)

theorem flatIdxNat_digits {shape : List ℕ} {r : ℕ} (h : r < shape.prod) :
    flatIdxNat shape (digits shape r) = r := by
  induction shape generalizing r with
  | nil =>
    simp only [List.prod_nil] at h
    interval_cases r
    rfl
  | cons m ms ih =>
    rw [List.prod_cons] at h
    have hppos : 0 < ms.prod := by
      rcases Nat.eq_zero_or_pos ms.prod with h0 | h0
      · rw [h0, Nat.mul_zero] at h; omega
      · exact h0
    show r / ms.prod * ms.prod + flatIdxNat ms (digits ms (r % ms.prod)) = r
    rw [ih (Nat.mod_lt r hppos), Nat.mul_comm (r / ms.prod) ms.prod]
    exact Nat.div_add_mod r ms.prod

/-! ### Edge weights at 0/1 distances select a single corner -/

theorem edgeWeightRow_cons (c : Bool) (js : List Bool) (t : ℚ) (ts : List ℚ) :
    edgeWeightRow (c :: js) (t :: ts) =
      (if c then t else 1 - t) * edgeWeightRow js ts := by
  rw [edgeWeightRow, edgeWeightRow, List.zipWith_cons_cons, List.prod_cons]

theorem select_sum (bs : List Bool) :
    ∀ g : List Bool → ℚ,
      ((tuples bs.length).map (fun js =>
        g js * edgeWeightRow js (bs.map (fun b => if b then (1 : ℚ) else 0)))).sum
      = g bs := by
  induction bs with
  | nil =>
    intro g
    simp [tuples, edgeWeightRow]
  | cons b bs ih =>
    intro g
    simp only [List.length_cons, tuples, List.flatMap_cons, List.flatMap_nil,
      List.map_append, List.map_map, List.sum_append, List.append_nil,
      List.map_cons]
    have hfalse : ((tuples bs.length).map
        ((fun js => g js * edgeWeightRow js
          ((if b then (1:ℚ) else 0) :: bs.map (fun b => if b then (1:ℚ) else 0)))
          ∘ fun js => false :: js)).sum
        = (1 - (if b then (1:ℚ) else 0)) *
          ((tuples bs.length).map (fun js => g (false :: js) * edgeWeightRow js
            (bs.map (fun b => if b then (1:ℚ) else 0)))).sum := by
      rw [← List.sum_map_mul_left]
      apply congrArg
      apply List.map_congr_left
      intro js _
      simp only [Function.comp_apply, edgeWeightRow_cons]
      have hred : (if (false : Bool) then (if b then (1:ℚ) else 0)
          else 1 - (if b then (1:ℚ) else 0)) = 1 - (if b then (1:ℚ) else 0) := by
        simp
      rw [hred]; ring
    have htrue : ((tuples bs.length).map
        ((fun js => g js * edgeWeightRow js
          ((if b then (1:ℚ) else 0) :: bs.map (fun b => if b then (1:ℚ) else 0)))
          ∘ fun js => true :: js)).sum
        = (if b then (1:ℚ) else 0) *
          ((tuples bs.length).map (fun js => g (true :: js) * edgeWeightRow js
            (bs.map (fun b => if b then (1:ℚ) else 0)))).sum := by
      rw [← List.sum_map_mul_left]
      apply congrArg
      apply List.map_congr_left
      intro js _
      simp only [Function.comp_apply, edgeWeightRow_cons, if_true]
      ring
    rw [hfalse, htrue, ih (fun js => g (false :: js)), ih (fun js => g (true :: js))]
    cases b
    · norm_num
    · norm_num

/-! ### Per-axis facts packaged from a successful construction -/

theorem forall₂_trans {α β γ : Type _} {R : α → β → Prop} {S : β → γ → Prop}
    {T : α → γ → Prop} (h : ∀ a b c, R a b → S b c → T a c) :
    ∀ {l₁ : List α} {l₂ : List β} {l₃ : List γ},
      List.Forall₂ R l₁ l₂ → List.Forall₂ S l₂ l₃ → List.Forall₂ T l₁ l₃ := by
  intro l₁ l₂ l₃ h12
  induction h12 generalizing l₃ with
  | nil => intro h23; cases h23; exact List.Forall₂.nil
  | cons hab htail ih =>
    intro h23
    cases h23 with
    | cons hbc htail₂ => exact List.Forall₂.cons (h _ _ _ hab hbc) (ih htail₂)

theorem init_axis_facts {ips : List (List ℚ)} {os : List ℕ} {R : Resampler}
    (h : resamplerInit ips os = .ok R) :
    ∀ k p, ips.get? k = some p →
    ∃ nn a b, os.get? k = some nn ∧ 2 ≤ nn ∧ ascendingB p = true ∧
      2 ≤ p.length ∧ p.get? 0 = some a ∧ p.get? (p.length - 1) = some b ∧
      a < b ∧
      R.out_points.get? k = some (linspace a b nn) ∧
      R.lower_edge_inds.get? k = some ((linspace a b nn).map (jIdx p)) ∧
      R.norm_distances.get? k = some ((linspace a b nn).map (normDist p)) := by
  obtain ⟨hin, hall, hlen, hos2, hpos, hol, hll, hnl, hper⟩ := resamplerInit_ok h
  intro k p hp
  have hklt : k < ips.length := by
    by_contra hc
    push_neg at hc
    rw [List.get?_eq_none.mpr hc] at hp
    exact Option.noConfusion hp
  have hkos : k < os.length := by omega
  obtain ⟨nn, hnn⟩ : ∃ nn, os.get? k = some nn := by
    rw [List.get?_eq_get hkos]; exact ⟨_, rfl⟩
  have hn2 : 2 ≤ nn := hos2 nn (List.get?_mem hnn)
  have hasc : ascendingB p = true := hall p (List.get?_mem hp)
  obtain ⟨out, low, nds, hper', houk, hlok, hndk⟩ := hper k p nn hp hnn
  have hplen : 2 ≤ p.length := perAxis_some_len2 hn2 hper'
  have h0lt : 0 < p.length := by omega
  have h1lt : p.length - 1 < p.length := by omega
  obtain ⟨a, ha⟩ : ∃ a, p.get? 0 = some a := by
    rw [List.get?_eq_get h0lt]; exact ⟨_, rfl⟩
  obtain ⟨b, hb⟩ : ∃ b, p.get? (p.length - 1) = some b := by
    rw [List.get?_eq_get h1lt]; exact ⟨_, rfl⟩
  have hchar := perAxis_eq_of_valid hasc hplen hn2 ha hb
  rw [hper'] at hchar
  have hchar' := Option.some_inj.mp hchar
  have h1 : out = linspace a b nn := congrArg Prod.fst hchar'
  have h2 : low = (linspace a b nn).map (jIdx p) :=
    congrArg (fun t => t.2.1) hchar'
  have h3 : nds = (linspace a b nn).map (normDist p) :=
    congrArg (fun t => t.2.2) hchar'
  refine ⟨nn, a, b, hnn, hn2, hasc, hplen, ha, hb,
    head_lt_last_of_sorted (pairwise_of_ascendingB hasc) hplen ha hb, ?_, ?_, ?_⟩
  · rw [houk, h1]
  · rw [hlok, h2]
  · rw [hndk, h3]

theorem init_lengths {ips : List (List ℚ)} {os : List ℕ} {R : Resampler}
    (h : resamplerInit ips os = .ok R) :
    R.in_points = ips ∧ ndimR R = ips.length ∧
    R.out_points.length = ips.length ∧
    R.lower_edge_inds.length = ips.length ∧
    R.norm_distances.length = ips.length := by
  obtain ⟨hin, -, -, -, -, hol, hll, hnl, -⟩ := resamplerInit_ok h
  exact ⟨hin, by rw [ndimR, hin], hol, hll, hnl⟩

theorem init_lower_forall₂ {ips : List (List ℚ)} {os : List ℕ} {R : Resampler}
    (h : resamplerInit ips os = .ok R) :
    List.Forall₂ (fun (low : List ℤ) (p : List ℚ) =>
      ∀ i ∈ low, 0 ≤ i ∧ i ≤ (p.length : ℤ) - 2) R.lower_edge_inds ips := by
  obtain ⟨-, -, -, hll, -⟩ := init_lengths h
  rw [List.forall₂_iff_get]
  refine ⟨hll, ?_⟩
  intro k h₁ h₂
  have hp : ips.get? k = some (ips.get ⟨k, h₂⟩) := List.get?_eq_get h₂
  obtain ⟨nn, a, b, -, hn2, hasc, hplen, ha, hb, hab, -, hlok, -⟩ :=
    init_axis_facts h k _ hp
  have hlowk : R.lower_edge_inds.get ⟨k, h₁⟩
      = (linspace a b nn).map (jIdx (ips.get ⟨k, h₂⟩)) := by
    have := List.get?_eq_get h₁
    rw [this] at hlok
    exact Option.some_inj.mp hlok.symm |>.symm
  rw [hlowk]
  intro i hi
  simp only [List.mem_map] at hi
  obtain ⟨v, hv, rfl⟩ := hi
  obtain ⟨hav, hvb⟩ := linspace_bounds (le_of_lt hab) hn2 v hv
  obtain ⟨j, lo, hi', hj, hjle, -, -, -, -, -, -, -⟩ :=
    jIdx_spec (pairwise_of_ascendingB hasc) hplen ha hb hav hvb
  rw [hj]
  constructor
  · exact Int.natCast_nonneg j
  · omega

theorem init_nds_bounds {ips : List (List ℚ)} {os : List ℕ} {R : Resampler}
    (h : resamplerInit ips os = .ok R) :
    ∀ nds ∈ R.norm_distances, ∀ t ∈ nds, 0 ≤ t ∧ t ≤ 1 := by
  intro nds hnds t ht
  obtain ⟨k, hk⟩ := List.get?_of_mem hnds
  obtain ⟨-, -, -, -, hnl⟩ := init_lengths h
  have hklt : k < R.norm_distances.length := by
    by_contra hc
    push_neg at hc
    rw [List.get?_eq_none.mpr hc] at hk
    exact Option.noConfusion hk
  have hkips : k < ips.length := by omega
  have hp : ips.get? k = some (ips.get ⟨k, hkips⟩) := List.get?_eq_get hkips
  obtain ⟨nn, a, b, -, hn2, hasc, hplen, ha, hb, hab, -, -, hndk⟩ :=
    init_axis_facts h k _ hp
  rw [hk] at hndk
  have hnds' := Option.some_inj.mp hndk
  rw [hnds'] at ht
  simp only [List.mem_map] at ht
  obtain ⟨v, hv, rfl⟩ := ht
  obtain ⟨hav, hvb⟩ := linspace_bounds (le_of_lt hab) hn2 v hv
  exact normDist_bounds hasc hplen ha hb hav hvb

/-! ### `applyR`: totality and pointwise value -/

theorem gatherRow_bounds {js : List Bool} :
    ∀ {is : List ℤ} {axes : List (List ℚ)},
      List.Forall₂ (fun (i : ℤ) (p : List ℚ) =>
        0 ≤ i ∧ i ≤ (p.length : ℤ) - 2) is axes →
      List.Forall₂ (fun (i : ℤ) (p : List ℚ) =>
        0 ≤ i ∧ i < (p.length : ℤ)) (gatherRow js is) axes ∨
      (gatherRow js is).length < is.length := by
  induction js with
  | nil =>
    intro is axes h
    cases h with
    | nil => exact Or.inl List.Forall₂.nil
    | cons _ _ => right; simp [gatherRow]
  | cons j js ih =>
    intro is axes h
    cases h with
    | nil => exact Or.inl List.Forall₂.nil
    | @cons i p is' axes' hip htail =>
      rcases ih htail with hok | hshort
      · left
        refine List.Forall₂.cons ?_ hok
        obtain ⟨h0, h2⟩ := hip
        constructor
        · cases j
          · simpa using h0
          · have hi1 : (0 : ℤ) ≤ i + 1 := by omega
            simpa using hi1
        · cases j
          · have hi1 : i < (p.length : ℤ) := by omega
            simpa using hi1
          · have hi1 : i + 1 < (p.length : ℤ) := by omega
            simpa using hi1
      · right
        simp only [gatherRow, List.zipWith_cons_cons, List.length_cons] at *
        omega

theorem gatherRow_bounds_of_length {js : List Bool} {is : List ℤ}
    {axes : List (List ℚ)} (hlen : js.length = is.length)
    (h : List.Forall₂ (fun (i : ℤ) (p : List ℚ) =>
      0 ≤ i ∧ i ≤ (p.length : ℤ) - 2) is axes) :
    List.Forall₂ (fun (i : ℤ) (p : List ℚ) =>
      0 ≤ i ∧ i < (p.length : ℤ)) (gatherRow js is) axes := by
  rcases gatherRow_bounds h with hok | hshort
  · exact hok
  · exfalso
    rw [gatherRow, List.length_zipWith] at hshort
    omega

theorem pointOut_eq {A : NDArr} {n : ℕ} {row : List ℤ × List ℚ}
    {corner : List Bool → ℚ}
    (h : ∀ js ∈ tuples n, ndGet A (gatherRow js row.1) = some (corner js)) :
    pointOut A n row =
      some (((tuples n).map
        (fun js => corner js * edgeWeightRow js row.2)).sum) := by
  rw [pointOut, omap_eq_some_of_forall (fun js hjs => by rw [h js hjs]; rfl)]
  rfl

theorem pointOut_some {A : NDArr} {n : ℕ} {row : List ℤ × List ℚ}
    (h : ∀ js ∈ tuples n, ∃ c, ndGet A (gatherRow js row.1) = some c) :
    ∃ v, pointOut A n row = some v := by
  have h' : ∀ js ∈ tuples n, ∃ y,
      (ndGet A (gatherRow js row.1)).map
        (fun c => c * edgeWeightRow js row.2) = some y := by
    intro js hjs
    obtain ⟨c, hc⟩ := h js hjs
    exact ⟨c * edgeWeightRow js row.2, by rw [hc]; rfl⟩
  obtain ⟨l', hl'⟩ := omap_isSome_of_forall h'
  exact ⟨l'.sum, by rw [pointOut, hl']; rfl⟩

theorem applyR_mismatch {R : Resampler} {A : NDArr} (h : A.shape ≠ inShape R) :
    applyR R A = .error .shapeMismatch := by
  rw [applyR, if_pos h]

theorem gather_inrange {ips : List (List ℚ)} {os : List ℕ} {R : Resampler}
    (hinit : resamplerInit ips os = .ok R) :
    ∀ row ∈ pointRows R, ∀ js ∈ tuples (ndimR R),
      List.Forall₂ (fun (i : ℤ) (p : List ℚ) =>
        0 ≤ i ∧ i < (p.length : ℤ)) (gatherRow js row.1) ips := by
  obtain ⟨hin, hdim, -, -, -⟩ := init_lengths hinit
  intro row hrow js hjs
  have hmem : row.1 ∈ cartesianProd R.lower_edge_inds :=
    (List.of_mem_zip hrow).1
  have hf₂ : List.Forall₂ (fun x low => x ∈ low) row.1 R.lower_edge_inds :=
    mem_cartesianProd hmem
  have hbounds : List.Forall₂ (fun (i : ℤ) (p : List ℚ) =>
      0 ≤ i ∧ i ≤ (p.length : ℤ) - 2) row.1 ips :=
    forall₂_trans (fun i low p hilo hlowp => hlowp i hilo) hf₂
      (init_lower_forall₂ hinit)
  have hrowlen : row.1.length = ips.length := by
    rw [hf₂.length_eq, (init_lengths hinit).2.2.2.1]
  have hjslen : js.length = row.1.length := by
    rw [length_of_mem_tuples hjs, hdim, hrowlen]
  exact gatherRow_bounds_of_length hjslen hbounds

theorem apply_gather_total {ips : List (List ℚ)} {os : List ℕ} {R : Resampler}
    (hinit : resamplerInit ips os = .ok R) {A : NDArr}
    (hsh : A.shape = inShape R) (hwf : A.data.length = A.shape.prod) :
    ∀ row ∈ pointRows R, ∀ js ∈ tuples (ndimR R),
      ∃ c, ndGet A (gatherRow js row.1) = some c := by
  obtain ⟨hin, -, -, -, -⟩ := init_lengths hinit
  intro row hrow js hjs
  have hgb := gather_inrange hinit row hrow js hjs
  have hshape : List.Forall₂ (fun (i : ℤ) (m : ℕ) => 0 ≤ i ∧ i < (m : ℤ))
      (gatherRow js row.1) A.shape := by
    rw [hsh, inShape, hin]
    exact List.forall₂_map_right_iff.mpr hgb
  exact ndGet_some hwf hshape

theorem apply_ok {ips : List (List ℚ)} {os : List ℕ} {R : Resampler}
    (hinit : resamplerInit ips os = .ok R) {A : NDArr}
    (hsh : A.shape = inShape R) (hwf : A.data.length = A.shape.prod) :
    ∃ out, applyR R A = .ok (R.out_points, out) ∧
      omap (pointOut A (ndimR R)) (pointRows R) = some out := by
  have htot : ∀ row ∈ pointRows R, ∃ v, pointOut A (ndimR R) row = some v :=
    fun row hrow => pointOut_some (apply_gather_total hinit hsh hwf row hrow)
  obtain ⟨out, hout⟩ := omap_isSome_of_forall htot
  refine ⟨out, ?_, hout⟩
  rw [applyR, if_neg (not_ne_iff.mpr hsh), hout]

/-! ### Fold-based `min`/`max` of numpy arrays -/

theorem foldl_min_eq {x : ℚ} : ∀ {xs : List ℚ}, (∀ y ∈ xs, x ≤ y) →
    xs.foldl min x = x := by
  intro xs
  induction xs generalizing x with
  | nil => intro _; rfl
  | cons y ys ih =>
    intro h
    have hxy : min x y = x :=
      min_eq_left (h y (List.mem_cons_self y ys))
    show ys.foldl min (min x y) = x
    rw [hxy]
    exact ih (fun z hz => h z (List.mem_cons_of_mem y hz))

theorem foldl_max_le {b : ℚ} : ∀ {xs : List ℚ} {x : ℚ}, x ≤ b →
    (∀ y ∈ xs, y ≤ b) → xs.foldl max x ≤ b := by
  intro xs
  induction xs with
  | nil => intro x hx _; exact hx
  | cons y ys ih =>
    intro x hx h
    show ys.foldl max (max x y) ≤ b
    exact ih (max_le hx (h y (List.mem_cons_self y ys)))
      (fun z hz => h z (List.mem_cons_of_mem y hz))

theorem le_foldl_max_init : ∀ (xs : List ℚ) (x : ℚ), x ≤ xs.foldl max x := by
  intro xs
  induction xs with
  | nil => intro x; exact le_refl x
  | cons y ys ih =>
    intro x
    calc x ≤ max x y := le_max_left x y
      _ ≤ ys.foldl max (max x y) := ih (max x y)

theorem mem_le_foldl_max : ∀ {xs : List ℚ} (x : ℚ), ∀ y ∈ xs, y ≤ xs.foldl max x := by
  intro xs
  induction xs with
  | nil => intro x y hy; simp at hy
  | cons z zs ih =>
    intro x y hy
    rcases List.mem_cons.mp hy with rfl | hyz
    · calc y ≤ max x y := le_max_right x y
        _ ≤ zs.foldl max (max x y) := le_foldl_max_init zs (max x y)
    · exact ih (max x z) y hyz

theorem le_foldl_min {b : ℚ} : ∀ {xs : List ℚ} {x : ℚ}, b ≤ x →
    (∀ y ∈ xs, b ≤ y) → b ≤ xs.foldl min x := by
  intro xs
  induction xs with
  | nil => intro x hx _; exact hx
  | cons y ys ih =>
    intro x hx h
    show b ≤ ys.foldl min (min x y)
    exact ih (le_min hx (h y (List.mem_cons_self y ys)))
      (fun z hz => h z (List.mem_cons_of_mem y hz))

theorem foldl_min_le_init : ∀ (xs : List ℚ) (x : ℚ), xs.foldl min x ≤ x := by
  intro xs
  induction xs with
  | nil => intro x; exact le_refl x
  | cons y ys ih =>
    intro x
    calc ys.foldl min (min x y) ≤ min x y := ih (min x y)
      _ ≤ x := min_le_left x y

theorem foldl_min_le_mem : ∀ {xs : List ℚ} (x : ℚ), ∀ y ∈ xs, xs.foldl min x ≤ y := by
  intro xs
  induction xs with
  | nil => intro x y hy; simp at hy
  | cons z zs ih =>
    intro x y hy
    rcases List.mem_cons.mp hy with rfl | hyz
    · calc zs.foldl min (min x y) ≤ min x y := foldl_min_le_init zs (min x y)
        _ ≤ y := min_le_right x y
    · exact ih (min x z) y hyz

theorem sorted_le_of_get {p : List ℚ} (hp : List.Pairwise (· < ·) p)
    {i j : ℕ} {x y : ℚ} (hx : p.get? i = some x) (hy : p.get? j = some y)
    (hij : i ≤ j) : x ≤ y := by
  have hjlt : j < p.length := by
    by_contra hc
    push_neg at hc
    rw [List.get?_eq_none.mpr hc] at hy
    exact Option.noConfusion hy
  have hilt : i < p.length := by omega
  rw [List.get?_eq_get hilt] at hx
  rw [List.get?_eq_get hjlt] at hy
  rcases Nat.lt_or_ge i j with hlt | hge
  · have := List.pairwise_iff_get.mp hp ⟨i, hilt⟩ ⟨j, hjlt⟩ (by
      rw [Fin.mk_lt_mk]; omega)
    rw [Option.some_inj.mp hx, Option.some_inj.mp hy] at this
    exact le_of_lt this
  · have hij' : i = j := by omega
    subst hij'
    rw [Option.some_inj.mp hx] at hy
    exact le_of_eq (Option.some_inj.mp hy)

theorem listMin_sorted {p : List ℚ} (hp : List.Pairwise (· < ·) p) :
    listMin p = p.get? 0 := by
  cases p with
  | nil => rfl
  | cons x xs =>
    show some (xs.foldl min x) = some x
    rw [foldl_min_eq (fun y hy =>
      le_of_lt (List.rel_of_pairwise_cons hp hy))]

theorem listMax_sorted {p : List ℚ} (hp : List.Pairwise (· < ·) p) :
    listMax p = p.get? (p.length - 1) := by
  cases p with
  | nil => rfl
  | cons x xs =>
    have hlt : (x :: xs).length - 1 < (x :: xs).length := by simp
    obtain ⟨b, hb⟩ : ∃ b, (x :: xs).get? ((x :: xs).length - 1) = some b := by
      rw [List.get?_eq_get hlt]; exact ⟨_, rfl⟩
    rw [hb]
    show some (xs.foldl max x) = some b
    have hleb : ∀ y ∈ x :: xs, y ≤ b := by
      intro y hy
      obtain ⟨i, hi⟩ := List.get?_of_mem hy
      have hilt : i < (x :: xs).length := by
        by_contra hc
        push_neg at hc
        rw [List.get?_eq_none.mpr hc] at hi
        exact Option.noConfusion hi
      exact sorted_le_of_get hp hi hb (by omega)
    have hble : b ∈ x :: xs := List.get?_mem hb
    have h1 : xs.foldl max x ≤ b :=
      foldl_max_le (hleb x (List.mem_cons_self x xs))
        (fun y hy => hleb y (List.mem_cons_of_mem x hy))
    have h2 : b ≤ xs.foldl max x := by
      rcases List.mem_cons.mp hble with rfl | hbxs
      · exact le_foldl_max_init xs b
      · exact mem_le_foldl_max x b hbxs
    rw [le_antisymm h1 h2]

theorem listMin_linspace {a b : ℚ} (hab : a ≤ b) {n : ℕ} (hn : 2 ≤ n) :
    listMin (linspace a b n) = some a := by
  have hhead := linspace_head a b hn
  cases hl : linspace a b n with
  | nil => rw [hl] at hhead; simp at hhead
  | cons x xs =>
    rw [hl] at hhead
    have hx : x = a := by simpa using hhead
    subst hx
    show some (xs.foldl min x) = some x
    rw [foldl_min_eq]
    intro y hy
    have hy' : y ∈ linspace x b n := by rw [hl]; exact List.mem_cons_of_mem x hy
    exact (linspace_bounds hab hn y hy').1

theorem listMax_linspace {a b : ℚ} (hab : a ≤ b) {n : ℕ} (hn : 2 ≤ n) :
    listMax (linspace a b n) = some b := by
  have hlast := linspace_last a b hn
  have hlen := linspace_length a b n
  cases hl : linspace a b n with
  | nil =>
    rw [hl] at hlen
    simp at hlen
    omega
  | cons x xs =>
    rw [hl] at hlast
    show some (xs.foldl max x) = some b
    have hmem : b ∈ x :: xs := List.get?_mem hlast
    have hub : ∀ y ∈ x :: xs, y ≤ b := by
      intro y hy
      have hy' : y ∈ linspace a b n := by rw [hl]; exact hy
      exact (linspace_bounds hab hn y hy').2
    have h1 : xs.foldl max x ≤ b :=
      foldl_max_le (hub x (List.mem_cons_self x xs))
        (fun y hy => hub y (List.mem_cons_of_mem x hy))
    have h2 : b ≤ xs.foldl max x := by
      rcases List.mem_cons.mp hmem with rfl | hbxs
      · exact le_foldl_max_init xs b
      · exact mem_le_foldl_max x b hbxs
    rw [le_antisymm h1 h2]

/-! ### Convex-combination bounds -/

theorem edgeWeightRow_nonneg : ∀ (js : List Bool) {ts : List ℚ},
    (∀ t ∈ ts, 0 ≤ t ∧ t ≤ 1) → 0 ≤ edgeWeightRow js ts := by
  intro js
  induction js with
  | nil => intro ts _; rw [edgeWeightRow]; simp
  | cons j js ih =>
    intro ts h
    cases ts with
    | nil => rw [edgeWeightRow]; simp
    | cons t ts =>
      rw [edgeWeightRow_cons]
      have ht := h t (List.mem_cons_self t ts)
      refine mul_nonneg ?_ (ih (fun z hz => h z (List.mem_cons_of_mem t hz)))
      cases j
      · simp only [Bool.false_eq_true, if_false]
        linarith [ht.2]
      · simp only [if_true]
        exact ht.1

theorem sum_map_mul_lower {α : Type _} {l : List α} {f g : α → ℚ} {m : ℚ}
    (hg : ∀ x ∈ l, 0 ≤ g x) (hf : ∀ x ∈ l, m ≤ f x) :
    m * (l.map g).sum ≤ (l.map (fun x => f x * g x)).sum := by
  induction l with
  | nil => simp
  | cons x xs ih =>
    simp only [List.map_cons, List.sum_cons, mul_add]
    have h1 : m * g x ≤ f x * g x :=
      mul_le_mul_of_nonneg_right (hf x (List.mem_cons_self x xs))
        (hg x (List.mem_cons_self x xs))
    have h2 : m * (xs.map g).sum ≤ (xs.map (fun x => f x * g x)).sum :=
      ih (fun z hz => hg z (List.mem_cons_of_mem x hz))
        (fun z hz => hf z (List.mem_cons_of_mem x hz))
    exact add_le_add h1 h2

theorem sum_map_mul_upper {α : Type _} {l : List α} {f g : α → ℚ} {M : ℚ}
    (hg : ∀ x ∈ l, 0 ≤ g x) (hf : ∀ x ∈ l, f x ≤ M) :
    (l.map (fun x => f x * g x)).sum ≤ M * (l.map g).sum := by
  induction l with
  | nil => simp
  | cons x xs ih =>
    simp only [List.map_cons, List.sum_cons, mul_add]
    have h1 : f x * g x ≤ M * g x :=
      mul_le_mul_of_nonneg_right (hf x (List.mem_cons_self x xs))
        (hg x (List.mem_cons_self x xs))
    have h2 : (xs.map (fun x => f x * g x)).sum ≤ M * (xs.map g).sum :=
      ih (fun z hz => hg z (List.mem_cons_of_mem x hz))
        (fun z hz => hf z (List.mem_cons_of_mem x hz))
    exact add_le_add h1 h2

theorem filterMap_eq_map_of {α β : Type _} {f : α → Option β} {g : α → β}
    {l : List α} (h : ∀ x ∈ l, f x = some (g x)) : l.filterMap f = l.map g := by
  induction l with
  | nil => rfl
  | cons x xs ih =>
    rw [List.filterMap_cons, h x (List.mem_cons_self x xs), List.map_cons,
      ih (fun z hz => h z (List.mem_cons_of_mem x hz))]

/-! ### Further helpers for the claims -/

theorem zipWith_get?_some {α β γ : Type _} {f : α → β → γ} {l : List α}
    {l' : List β} : ∀ {k : ℕ} {x : α} {y : β}, l.get? k = some x →
      l'.get? k = some y → (List.zipWith f l l').get? k = some (f x y) := by
  induction l generalizing l' with
  | nil => intro k x y hx _; simp at hx
  | cons a as ih =>
    intro k x y hx hy
    cases l' with
    | nil => simp at hy
    | cons b bs =>
      cases k with
      | zero =>
        have hax : a = x := by simpa using hx
        have hby : b = y := by simpa using hy
        subst hax; subst hby; rfl
      | succ k =>
        show (List.zipWith f as bs).get? k = some (f x y)
        exact ih (by simpa using hx) (by simpa using hy)

theorem forall₂_mem_left {α β : Type _} {R : α → β → Prop} :
    ∀ {l₁ : List α} {l₂ : List β}, List.Forall₂ R l₁ l₂ →
      ∀ x ∈ l₁, ∃ y ∈ l₂, R x y := by
  intro l₁ l₂ h
  induction h with
  | nil => intro x hx; simp at hx
  | cons hxy htail ih =>
    intro x hx
    rcases List.mem_cons.mp hx with rfl | hx'
    · exact ⟨_, List.mem_cons_self _ _, hxy⟩
    · obtain ⟨y, hy, hR⟩ := ih x hx'
      exact ⟨y, List.mem_cons_of_mem _ hy, hR⟩

theorem ndGet_mem {A : NDArr} {multi : List ℤ} {x : ℚ}
    (h : ndGet A multi = some x) : x ∈ A.data := by
  rw [ndGet] at h
  cases hf : flatIdx A.shape multi with
  | none => rw [hf] at h; exact Option.noConfusion h
  | some k =>
    rw [hf] at h
    exact List.get?_mem h

theorem init_inner_lengths {ips : List (List ℚ)} {os : List ℕ} {R : Resampler}
    (hinit : resamplerInit ips os = .ok R) :
    R.out_points.map List.length = os ∧
    R.lower_edge_inds.map List.length = os ∧
    R.norm_distances.map List.length = os := by
  obtain ⟨hin, -, hoslen, -, -, hol, hll, hnl, -⟩ := resamplerInit_ok hinit
  have hget : ∀ k p, ips.get? k = some p →
      ∃ nn, os.get? k = some nn ∧
        (R.out_points.get? k).map List.length = some nn ∧
        (R.lower_edge_inds.get? k).map List.length = some nn ∧
        (R.norm_distances.get? k).map List.length = some nn := by
    intro k p hp
    obtain ⟨nn, a, b, hnn, -, -, -, -, -, -, hok, hlk, hnk⟩ :=
      init_axis_facts hinit k p hp
    refine ⟨nn, hnn, ?_, ?_, ?_⟩
    · rw [hok]; simp [linspace_length]
    · rw [hlk]; simp [linspace_length]
    · rw [hnk]; simp [linspace_length]
  refine ⟨?_, ?_, ?_⟩ <;> apply List.ext <;> intro k
  · by_cases hk : k < ips.length
    · have hp : ips.get? k = some (ips.get ⟨k, hk⟩) := List.get?_eq_get hk
      obtain ⟨nn, hnn, h1, -, -⟩ := hget k _ hp
      rw [List.get?_map] at *
      rw [h1, hnn]
    · rw [List.get?_eq_none.mpr (by simp; omega), List.get?_eq_none.mpr (by omega)]
  · by_cases hk : k < ips.length
    · have hp : ips.get? k = some (ips.get ⟨k, hk⟩) := List.get?_eq_get hk
      obtain ⟨nn, hnn, -, h2, -⟩ := hget k _ hp
      rw [List.get?_map] at *
      rw [h2, hnn]
    · rw [List.get?_eq_none.mpr (by simp; omega), List.get?_eq_none.mpr (by omega)]
  · by_cases hk : k < ips.length
    · have hp : ips.get? k = some (ips.get ⟨k, hk⟩) := List.get?_eq_get hk
      obtain ⟨nn, hnn, -, -, h3⟩ := hget k _ hp
      rw [List.get?_map] at *
      rw [h3, hnn]
    · rw [List.get?_eq_none.mpr (by simp; omega), List.get?_eq_none.mpr (by omega)]

theorem countLt_get {p : List ℚ} (hp : List.Pairwise (· < ·) p) {d : ℕ} {v : ℚ}
    (hd : p.get? d = some v) : countLt p v = d := by
  have hdlt : d < p.length := by
    by_contra hc
    push_neg at hc
    rw [List.get?_eq_none.mpr hc] at hd
    exact Option.noConfusion hd
  rcases Nat.lt_trichotomy (countLt p v) d with hlt | heq | hgt
  · exfalso
    have hclen : countLt p v < p.length := by omega
    obtain ⟨x, hx⟩ : ∃ x, p.get? (countLt p v) = some x := by
      rw [List.get?_eq_get hclen]; exact ⟨_, rfl⟩
    have hvx : v ≤ x := count_spec_ge hp _ x hx (le_refl _)
    have hxv : x < v := by
      have hfin : (⟨countLt p v, hclen⟩ : Fin p.length) < ⟨d, hdlt⟩ := by
        rw [Fin.mk_lt_mk]; omega
      have := List.pairwise_iff_get.mp hp _ _ hfin
      rw [List.get?_eq_get hclen] at hx
      rw [List.get?_eq_get hdlt] at hd
      rw [Option.some_inj.mp hx, Option.some_inj.mp hd] at this
      exact this
    linarith
  · exact heq
  · exfalso
    have := count_spec_lt hp d v hd hgt
    linarith

theorem axis_identity {p : List ℚ} (hasc : ascendingB p = true)
    (hlen : 2 ≤ p.length) {d : ℕ} {v : ℚ} (hd : p.get? d = some v) :
    jIdx p v = ((if 1 ≤ d then d - 1 else 0 : ℕ) : ℤ) ∧
    normDist p v = (if 1 ≤ d then (1 : ℚ) else 0) := by
  have hpw := pairwise_of_ascendingB hasc
  have hdlt : d < p.length := by
    by_contra hc
    push_neg at hc
    rw [List.get?_eq_none.mpr hc] at hd
    exact Option.noConfusion hd
  have hcount := countLt_get hpw hd
  by_cases hd1 : 1 ≤ d
  · have hj : jIdx p v = ((d - 1 : ℕ) : ℤ) := by
      rw [jIdx, hcount, clipZ]
      omega
    refine ⟨by rw [hj, if_pos hd1], ?_⟩
    have hd1lt : d - 1 < p.length := by omega
    obtain ⟨lo, hlo⟩ : ∃ lo, p.get? (d - 1) = some lo := by
      rw [List.get?_eq_get hd1lt]; exact ⟨_, rfl⟩
    have hd11 : d - 1 + 1 = d := by omega
    have hhi : p.get? (d - 1 + 1) = some v := by rw [hd11]; exact hd
    rw [normDist_eq_of hj hlo hhi, if_pos hd1]
    have hlov : lo < v := by
      have hfin : (⟨d - 1, hd1lt⟩ : Fin p.length) < ⟨d, hdlt⟩ := by
        rw [Fin.mk_lt_mk]; omega
      have := List.pairwise_iff_get.mp hpw _ _ hfin
      rw [List.get?_eq_get hd1lt] at hlo
      rw [List.get?_eq_get hdlt] at hd
      rw [Option.some_inj.mp hlo, Option.some_inj.mp hd] at this
      exact this
    rw [div_self (by linarith)]
  · have hd0 : d = 0 := by omega
    subst hd0
    have hj : jIdx p v = ((0 : ℕ) : ℤ) := by
      rw [jIdx, hcount, clipZ]
      omega
    refine ⟨by rw [hj, if_neg hd1], ?_⟩
    have h1lt : 0 + 1 < p.length := by omega
    obtain ⟨hi, hhi⟩ : ∃ hi, p.get? (0 + 1) = some hi := by
      rw [List.get?_eq_get h1lt]; exact ⟨_, rfl⟩
    rw [normDist_eq_of hj hd hhi, if_neg hd1, sub_self, zero_div]

theorem zip_get?_inv {α β : Type _} {l : List α} {l' : List β} :
    ∀ {k : ℕ} {xy : α × β}, (l.zip l').get? k = some xy →
      l.get? k = some xy.1 ∧ l'.get? k = some xy.2 := by
  induction l generalizing l' with
  | nil => intro k xy h; simp [List.zip] at h
  | cons a as ih =>
    intro k xy h
    cases l' with
    | nil => simp [List.zip] at h
    | cons b bs =>
      cases k with
      | zero =>
        have : (a, b) = xy := by simpa using h
        rw [← this]
        exact ⟨rfl, rfl⟩
      | succ k =>
        exact ih (by simpa using h)

/-! ### The claims -/

/-- C9: for input axis `[0, 10, 20]`, field `[0, 100, 0]` and `out_shape = [5]`,
the resampler returns output axis values `[0, 5, 10, 15, 20]` and output
values `[0, 50, 100, 50, 0]`. -/
theorem C9_example_1d :
    ∃ R, resamplerInit [[0, 10, 20]] [5] = .ok R ∧
      applyR R ⟨[3], [0, 100, 0]⟩ =
        .ok ([[0, 5, 10, 15, 20]], [0, 50, 100, 50, 0]) :=
  ⟨_, by with_unfolding_all rfl, by with_unfolding_all rfl⟩

/-- C1 counterexample: on the axis `[0, 1, 2]` with 3 output points the
stored lower-edge index at the interior output value `v = 1` is `0` (with
norm_distance `1`), whereas the claim's rule `j = largest index with
axis_in[j] ≤ v` (clipped) gives `1` (with norm_distance `0`): the code uses
`searchsorted` side `left`, i.e. the strict comparison `axis_in[j] < v`. -/
theorem C1_counterexample :
    perAxis [0, 1, 2] 3 = some ([0, 1, 2], [0, 0, 1], [0, 1, 1]) ∧
    specLowerIdxLe [0, 1, 2] 1 = 1 ∧
    ((0 : ℤ) ≠ 1) :=
  ⟨by with_unfolding_all rfl, by with_unfolding_all rfl, by decide⟩

/-- C1 (amended): for every valid axis and output count, the per-axis
precomputation sets `out_values = linspace(axis min, axis max, n_out)`, and
for each output value `v` the stored lower-edge index `j` is the largest
index with `axis_in[j] < v` (strict; clipped into `[0, len-2]`, so `j = 0`
when no such index exists), with
`norm_distance = (v - axis_in[j]) / (axis_in[j+1] - axis_in[j])`; in
particular `v = axis min` gives `j = 0`, `norm_distance = 0`, and
`v = axis max` gives `j = len-2`, `norm_distance = 1`. -/
theorem C1_perAxis_amended {p : List ℚ} {n : ℕ} (hasc : ascendingB p = true)
    (hlen : 2 ≤ p.length) (hn : 2 ≤ n) {a b : ℚ}
    (ha : p.get? 0 = some a) (hb : p.get? (p.length - 1) = some b) :
    listMin p = some a ∧ listMax p = some b ∧
    ∃ js nds, perAxis p n = some (linspace a b n, js, nds) ∧
      js.length = n ∧ nds.length = n ∧
      (∀ k v, (linspace a b n).get? k = some v →
        ∃ (j : ℕ) (lo hi : ℚ), js.get? k = some ((j : ℕ) : ℤ) ∧
          j ≤ p.length - 2 ∧
          p.get? j = some lo ∧ p.get? (j + 1) = some hi ∧
          (∀ i x, p.get? i = some x → x < v → i ≤ j) ∧
          (j = 0 ∨ lo < v) ∧
          nds.get? k = some ((v - lo) / (hi - lo))) ∧
      (js.get? 0 = some 0 ∧ nds.get? 0 = some 0) ∧
      (js.get? (n - 1) = some ((p.length : ℤ) - 2) ∧
        nds.get? (n - 1) = some 1) := by
  have hpw := pairwise_of_ascendingB hasc
  have hab : a < b := head_lt_last_of_sorted hpw hlen ha hb
  refine ⟨by rw [listMin_sorted hpw, ha], by rw [listMax_sorted hpw, hb],
    (linspace a b n).map (jIdx p), (linspace a b n).map (normDist p),
    perAxis_eq_of_valid hasc hlen hn ha hb,
    by rw [List.length_map, linspace_length],
    by rw [List.length_map, linspace_length], ?_, ?_, ?_⟩
  · intro k v hkv
    have hvmem : v ∈ linspace a b n := List.get?_mem hkv
    obtain ⟨hav, hvb⟩ := linspace_bounds (le_of_lt hab) hn v hvmem
    obtain ⟨j, lo, hi, hj, hjle, hlo, hhi, -, -, -, hlargest, hj0⟩ :=
      jIdx_spec hpw hlen ha hb hav hvb
    refine ⟨j, lo, hi, ?_, hjle, hlo, hhi, hlargest, ?_, ?_⟩
    · rw [List.get?_map, hkv]
      simp only [Option.map_some']
      rw [hj]
    · rcases hj0 with h0 | hlov
      · exact Or.inl h0
      · exact Or.inr hlov
    · rw [List.get?_map, hkv]
      simp only [Option.map_some']
      rw [normDist_eq_of hj hlo hhi]
  · have hkv := linspace_head a b hn
    obtain ⟨hjid, hnd⟩ := axis_identity hasc hlen ha
    constructor
    · rw [List.get?_map, hkv]
      simp only [Option.map_some']
      rw [hjid]
      norm_num
    · rw [List.get?_map, hkv]
      simp only [Option.map_some']
      rw [hnd]
      norm_num
  · have hkv := linspace_last a b hn
    obtain ⟨hjid, hnd⟩ := axis_identity hasc hlen hb
    have hd1 : 1 ≤ p.length - 1 := by omega
    constructor
    · rw [List.get?_map, hkv]
      simp only [Option.map_some']
      rw [hjid, if_pos hd1]
      have : ((p.length - 1 - 1 : ℕ) : ℤ) = (p.length : ℤ) - 2 := by omega
      rw [this]
    · rw [List.get?_map, hkv]
      simp only [Option.map_some']
      rw [hnd, if_pos hd1]

/-- C1 witness: the amended theorem applied to the axis `[0, 10, 20]` with 5
output points. -/
theorem C1_perAxis_amended_witness :
    listMin [0, 10, 20] = some 0 ∧ listMax [0, 10, 20] = some 20 ∧
    ∃ js nds, perAxis [0, 10, 20] 5 = some (linspace 0 20 5, js, nds) ∧
      js.length = 5 ∧ nds.length = 5 ∧
      (∀ k v, (linspace 0 20 5).get? k = some v →
        ∃ (j : ℕ) (lo hi : ℚ), js.get? k = some ((j : ℕ) : ℤ) ∧
          j ≤ ([0, 10, 20] : List ℚ).length - 2 ∧
          ([0, 10, 20] : List ℚ).get? j = some lo ∧
          ([0, 10, 20] : List ℚ).get? (j + 1) = some hi ∧
          (∀ i x, ([0, 10, 20] : List ℚ).get? i = some x → x < v → i ≤ j) ∧
          (j = 0 ∨ lo < v) ∧
          nds.get? k = some ((v - lo) / (hi - lo))) ∧
      (js.get? 0 = some 0 ∧ nds.get? 0 = some 0) ∧
      (js.get? (5 - 1) = some ((([0, 10, 20] : List ℚ).length : ℤ) - 2) ∧
        nds.get? (5 - 1) = some 1) :=
  C1_perAxis_amended (by with_unfolding_all rfl) (by decide) (by decide)
    rfl rfl

/-- C5 counterexample: the configuration with the single input axis `[0]`
(length 1, hence invalid per the claim) and `out_shape = [2]` does not fail
with a ConfigurationError: construction escapes with a numpy `IndexError`
instead (indexing the empty `np.diff` array). -/
theorem C5_counterexample :
    resamplerInit [[0]] [2] = .error .indexErr ∧
    InitError.isConfig .indexErr = false ∧
    ¬ (∀ p ∈ [[(0 : ℚ)]], 2 ≤ p.length) :=
  ⟨by with_unfolding_all rfl, rfl, by decide⟩

/-- C5 (amended): construction fails with ConfigurationError exactly when
some input axis is not strictly ascending (which covers duplicates), or
`len(out_shape)` differs from the number of axes, or some requested output
length is below 2.  An input axis with fewer than 2 points passes those
checks and construction instead fails with an out-of-range indexing error.
Every configuration with at least one axis, all axes strictly ascending of
length at least 2, matching dimension count and all output lengths at least
2 constructs successfully. -/
theorem C5_init_amended (ips : List (List ℚ)) (os : List ℕ) :
    ((∃ e, resamplerInit ips os = .error e ∧ e.isConfig = true) ↔
      (¬ ∀ p ∈ ips, ascendingB p = true) ∨ os.length ≠ ips.length ∨
        ∃ n ∈ os, n < 2) ∧
    ((∀ p ∈ ips, ascendingB p = true ∧ 2 ≤ p.length) →
      os.length = ips.length → (∀ n ∈ os, 2 ≤ n) → ips ≠ [] →
      ∃ R, resamplerInit ips os = .ok R) := by
  constructor
  · by_cases hc1 : ips.all ascendingB = true
    · rw [resamplerInit]
      rw [if_neg (not_not_intro hc1)]
      by_cases hc2 : os.length = ips.length
      · rw [if_neg (not_not_intro hc2)]
        by_cases hc3 : os.all (fun n => decide (2 ≤ n)) = true
        · rw [if_neg (not_not_intro hc3)]
          have hRHS : ¬ ((¬ ∀ p ∈ ips, ascendingB p = true) ∨
              os.length ≠ ips.length ∨ ∃ n ∈ os, n < 2) := by
            rintro (h | h | ⟨n, hn, hn2⟩)
            · exact h (fun p hp => List.all_eq_true.mp hc1 p hp)
            · exact h hc2
            · have := List.all_eq_true.mp hc3 n hn
              simp at this
              omega
          refine iff_of_false ?_ hRHS
          rintro ⟨e, he, hcfg⟩
          split at he
          · have h1 := Except.error.inj he
            rw [← h1] at hcfg
            exact Bool.noConfusion hcfg
          · split at he
            · have h1 := Except.error.inj he
              rw [← h1] at hcfg
              exact Bool.noConfusion hcfg
            · exact Except.noConfusion he
        · rw [if_pos hc3]
          constructor
          · intro _
            right; right
            have hc3' : ∃ n ∈ os, ¬ (2 ≤ n) := by
              by_contra hall
              push_neg at hall
              exact hc3 (List.all_eq_true.mpr
                (fun n hn => decide_eq_true (hall n hn)))
            obtain ⟨n, hnmem, hn2⟩ := hc3'
            exact ⟨n, hnmem, by omega⟩
          · intro _
            exact ⟨.configOutLen, rfl, rfl⟩
      · rw [if_pos hc2]
        constructor
        · intro _
          exact Or.inr (Or.inl hc2)
        · intro _
          exact ⟨.configNdim, rfl, rfl⟩
    · rw [resamplerInit, if_pos hc1]
      constructor
      · intro _
        left
        intro hall
        exact hc1 (List.all_eq_true.mpr hall)
      · intro _
        exact ⟨.configAscending, rfl, rfl⟩
  · exact resamplerInit_ok_of_valid

/-- C5 witness: a valid one-axis configuration constructs successfully. -/
theorem C5_init_amended_witness :
    ∃ R, resamplerInit [[0, 1]] [2] = .ok R :=
  (C5_init_amended [[0, 1]] [2]).2 (by with_unfolding_all decide) rfl
    (by decide) (by decide)

/-- C2: for every valid construction and every flat output point, the
stored `2^ndim` edge weights at that point sum to exactly 1. -/
theorem C2_partition_of_unity {ips : List (List ℚ)} {os : List ℕ}
    {R : Resampler} (hinit : resamplerInit ips os = .ok R)
    {r : ℕ} (hr : r < (cartesianProd R.norm_distances).length) :
    ((tuples (ndimR R)).map
      (fun js => (weightsVec R js).getD r 0)).sum = 1 := by
  obtain ⟨ts, hts⟩ : ∃ ts, (cartesianProd R.norm_distances).get? r = some ts := by
    rw [List.get?_eq_get hr]; exact ⟨_, rfl⟩
  have htsmem : ts ∈ cartesianProd R.norm_distances := List.get?_mem hts
  have htslen : ts.length = ndimR R := by
    rw [(mem_cartesianProd htsmem).length_eq,
      (init_lengths hinit).2.2.2.2, ← (init_lengths hinit).2.1]
  have hgetD : ∀ js, (weightsVec R js).getD r 0 = edgeWeightRow js ts := by
    intro js
    rw [weightsVec]
    apply getD_of_get?
    rw [List.get?_map, hts]
    rfl
  calc ((tuples (ndimR R)).map (fun js => (weightsVec R js).getD r 0)).sum
      = ((tuples (ndimR R)).map (fun js => edgeWeightRow js ts)).sum := by
        exact congrArg List.sum (List.map_congr_left (fun js _ => hgetD js))
    _ = 1 := by rw [← htslen]; exact sum_edgeWeightRow ts

/-- C2 witness: the partition of unity at one concrete output point of a
concrete construction. -/
theorem C2_partition_of_unity_witness :
    ((tuples (ndimR ⟨[[0, 1, 2]], [[0, 1, 2]], [[0, 0, 1]], [[0, 1, 1]]⟩)).map
      (fun js => (weightsVec
        ⟨[[0, 1, 2]], [[0, 1, 2]], [[0, 0, 1]], [[0, 1, 1]]⟩ js).getD 1 0)).sum
      = 1 :=
  @C2_partition_of_unity [[0, 1, 2]] [3]
    ⟨[[0, 1, 2]], [[0, 1, 2]], [[0, 0, 1]], [[0, 1, 1]]⟩
    (by with_unfolding_all rfl) 1 (by with_unfolding_all decide)

/-- C8: the cartesian-product helper returns one row per combination of the
input arrays (so `m1 * ... * mn` rows of `n` entries each), ordered with
the last array varying fastest: the row at the row-major flat position of a
multi-index is exactly the tuple of per-array picks at that multi-index. -/
theorem C8_cartesian_order {α : Type _} (as : List (List α)) :
    (cartesianProd as).length = (as.map List.length).prod ∧
    (∀ row ∈ cartesianProd as, row.length = as.length) ∧
    ∀ multi : List ℕ, List.Forall₂ (fun i a => i < List.length a) multi as →
      (cartesianProd as).get? (flatIdxNat (as.map List.length) multi) =
        omap (fun pa => pa.1.get? pa.2) (as.zip multi) := by
  refine ⟨length_cartesianProd as, ?_, ?_⟩
  · intro row hrow
    exact (mem_cartesianProd hrow).length_eq
  · intro multi h
    exact cartesianProd_get? h

/-- C8 witness: the helper on `([10,20,30], [40,50])` at multi-index
`(2, 1)` (flat position 5, last array fastest) picks `[30, 50]`. -/
theorem C8_cartesian_order_witness :
    (cartesianProd [[10, 20, 30], [40, 50]]).get?
      (flatIdxNat [3, 2] [2, 1]) = some [(30 : ℕ), 50] := by
  have h := (C8_cartesian_order [[10, 20, 30], [40, 50]]).2.2 [2, 1] (by decide)
  exact h.trans rfl

/-- C10: whenever `interpolate_flux_arrays` returns interpolated grids, the
final negative-value clipping guarantees that every value in every returned
array is non-negative. -/
theorem C10_clipped_nonneg {ι : Type _} {pa : List (List ℚ)} {sh : List ℕ}
    {gs : List (ι × NDArr)} {out : List (ι × List ℚ)}
    (h : interpolate_flux_arrays pa sh gs = some out) :
    ∀ g ∈ out, ∀ x ∈ g.2, 0 ≤ x := by
  rw [interpolate_flux_arrays] at h
  cases hR : resamplerInit pa sh with
  | error e => rw [hR] at h; exact Option.noConfusion h
  | ok R =>
    simp only [hR] at h
    rw [Option.map_eq_some'] at h
    obtain ⟨gs', homap, hmap⟩ := h
    intro g hg x hx
    rw [← hmap] at hg
    simp only [List.mem_map] at hg
    obtain ⟨g', hg', rfl⟩ := hg
    simp only [clipNonneg, List.mem_map] at hx
    obtain ⟨y, hy, rfl⟩ := hx
    exact le_max_right y 0

/-- C10 witness: a concrete interpolation run whose returned grid is
entirely non-negative. -/
theorem C10_clipped_nonneg_witness :
    interpolate_flux_arrays [[0, 10, 20]] [5] [((), NDArr.mk [3] [0, 100, 0])]
      = some [((), [0, 50, 100, 50, 0])] ∧
    ∀ g ∈ [(((), [(0 : ℚ), 50, 100, 50, 0]) : Unit × List ℚ)],
      ∀ x ∈ g.2, 0 ≤ x :=
  ⟨by with_unfolding_all rfl,
    @C10_clipped_nonneg Unit [[0, 10, 20]] [5] [((), NDArr.mk [3] [0, 100, 0])]
      [((), [0, 50, 100, 50, 0])] (by with_unfolding_all rfl)⟩

/-- C6: `apply` on a field whose shape differs from the stored input shape
fails with the shape-mismatch error; on a matching (well-formed) field it
returns the per-axis output coordinate arrays together with a flat output
of exactly `out_shape` (its length is the product of `out_shape`, and the
returned coordinate arrays have exactly the lengths `out_shape`; the
reshape to `out_shape` is row-major by `flatIdxNat`). -/
theorem C6_shape_contract {ips : List (List ℚ)} {os : List ℕ} {R : Resampler}
    (hinit : resamplerInit ips os = .ok R) (A : NDArr) :
    (A.shape ≠ inShape R → applyR R A = .error .shapeMismatch) ∧
    (A.shape = inShape R → A.data.length = A.shape.prod →
      ∃ out, applyR R A = .ok (R.out_points, out) ∧
        out.length = os.prod ∧
        R.out_points.map List.length = os) := by
  constructor
  · exact applyR_mismatch
  · intro hsh hwf
    obtain ⟨out, happ, homap⟩ := apply_ok hinit hsh hwf
    obtain ⟨hoolen, hlolen, hndlen⟩ := init_inner_lengths hinit
    refine ⟨out, happ, ?_, hoolen⟩
    rw [omap_length homap, pointRows, List.length_zip, length_cartesianProd,
      length_cartesianProd, hlolen, hndlen, min_self]

/-- C6 witness: the shape contract at a concrete construction, exercised on
a mismatching and on a matching field. -/
theorem C6_shape_contract_witness :
    (([4] : List ℕ) ≠ inShape ⟨[[0, 1, 2]], [[0, 1, 2]], [[0, 0, 1]], [[0, 1, 1]]⟩ →
      applyR ⟨[[0, 1, 2]], [[0, 1, 2]], [[0, 0, 1]], [[0, 1, 1]]⟩
        ⟨[4], [1, 2, 3, 4]⟩ = .error .shapeMismatch) ∧
    (([4] : List ℕ) = inShape ⟨[[0, 1, 2]], [[0, 1, 2]], [[0, 0, 1]], [[0, 1, 1]]⟩ →
      ([1, 2, 3, 4] : List ℚ).length = ([4] : List ℕ).prod →
      ∃ out, applyR ⟨[[0, 1, 2]], [[0, 1, 2]], [[0, 0, 1]], [[0, 1, 1]]⟩
          ⟨[4], [1, 2, 3, 4]⟩ =
          .ok ((⟨[[0, 1, 2]], [[0, 1, 2]], [[0, 0, 1]], [[0, 1, 1]]⟩ :
            Resampler).out_points, out) ∧
        out.length = ([3] : List ℕ).prod ∧
        ((⟨[[0, 1, 2]], [[0, 1, 2]], [[0, 0, 1]], [[0, 1, 1]]⟩ :
          Resampler).out_points).map List.length = [3]) :=
  @C6_shape_contract [[0, 1, 2]] [3]
    ⟨[[0, 1, 2]], [[0, 1, 2]], [[0, 0, 1]], [[0, 1, 1]]⟩
    (by with_unfolding_all rfl) ⟨[4], [1, 2, 3, 4]⟩

/-- C7: for every valid construction, every generated output axis has
exactly the min and max of the corresponding input axis; every gather
index of every edge lies in `[0, axis length - 1]`; and consequently
`apply` on any well-formed field of matching shape succeeds (no
out-of-range indexing can occur). -/
theorem C7_no_extrapolation_safety {ips : List (List ℚ)} {os : List ℕ}
    {R : Resampler} (hinit : resamplerInit ips os = .ok R) :
    (∀ k p q, ips.get? k = some p → R.out_points.get? k = some q →
      listMin q = listMin p ∧ listMax q = listMax p) ∧
    (∀ row ∈ pointRows R, ∀ js ∈ tuples (ndimR R),
      List.Forall₂ (fun (i : ℤ) (p : List ℚ) => 0 ≤ i ∧ i < (p.length : ℤ))
        (gatherRow js row.1) ips) ∧
    (∀ A : NDArr, A.shape = inShape R → A.data.length = A.shape.prod →
      ∃ res, applyR R A = .ok res) := by
  refine ⟨?_, gather_inrange hinit, ?_⟩
  · intro k p q hp hq
    obtain ⟨nn, a, b, -, hn2, hasc, hplen, ha, hb, hab, hok, -, -⟩ :=
      init_axis_facts hinit k p hp
    rw [hq] at hok
    have hqe : q = linspace a b nn := Option.some_inj.mp hok
    have hpw := pairwise_of_ascendingB hasc
    constructor
    · rw [hqe, listMin_linspace (le_of_lt hab) hn2, listMin_sorted hpw, ha]
    · rw [hqe, listMax_linspace (le_of_lt hab) hn2, listMax_sorted hpw, hb]
  · intro A hsh hwf
    obtain ⟨out, happ, -⟩ := apply_ok hinit hsh hwf
    exact ⟨_, happ⟩

/-- C7 witness: a concrete apply that cannot fail. -/
theorem C7_no_extrapolation_safety_witness :
    ∃ res, applyR ⟨[[0, 1, 2]], [[0, 1, 2]], [[0, 0, 1]], [[0, 1, 1]]⟩
      ⟨[3], [1, 5, 2]⟩ = .ok res :=
  (@C7_no_extrapolation_safety [[0, 1, 2]] [3]
    ⟨[[0, 1, 2]], [[0, 1, 2]], [[0, 0, 1]], [[0, 1, 1]]⟩
    (by with_unfolding_all rfl)).2.2 ⟨[3], [1, 5, 2]⟩ rfl rfl

/-- C3: on a valid construction and a matching well-formed field, apply
succeeds and each output value is a convex combination of the `2^ndim`
gathered corner values of its containing cell: it is bounded below by any
lower bound and above by any upper bound of those corner values (which are
all values of the input field), and an all-non-negative field yields an
all-non-negative output, with no clipping applied inside apply. -/
theorem C3_convex_bounds {ips : List (List ℚ)} {os : List ℕ} {R : Resampler}
    (hinit : resamplerInit ips os = .ok R) {A : NDArr}
    (hsh : A.shape = inShape R) (hwf : A.data.length = A.shape.prod) :
    ∃ out, applyR R A = .ok (R.out_points, out) ∧
      (∀ r c row, out.get? r = some c → (pointRows R).get? r = some row →
        (∀ x ∈ cornerVals A (ndimR R) row.1, x ∈ A.data) ∧
        (∀ m, (∀ x ∈ cornerVals A (ndimR R) row.1, m ≤ x) → m ≤ c) ∧
        (∀ M, (∀ x ∈ cornerVals A (ndimR R) row.1, x ≤ M) → c ≤ M)) ∧
      ((∀ x ∈ A.data, 0 ≤ x) → ∀ c ∈ out, 0 ≤ c) := by
  obtain ⟨out, happ, homap⟩ := apply_ok hinit hsh hwf
  have hmain : ∀ r c row, out.get? r = some c →
      (pointRows R).get? r = some row →
      (∀ x ∈ cornerVals A (ndimR R) row.1, x ∈ A.data) ∧
      (∀ m, (∀ x ∈ cornerVals A (ndimR R) row.1, m ≤ x) → m ≤ c) ∧
      (∀ M, (∀ x ∈ cornerVals A (ndimR R) row.1, x ≤ M) → c ≤ M) := by
    intro r c row hc hrow
    have hrowmem : row ∈ pointRows R := List.get?_mem hrow
    have htotal := apply_gather_total hinit hsh hwf row hrowmem
    have hcorner : ∀ js ∈ tuples (ndimR R),
        ndGet A (gatherRow js row.1)
          = some ((ndGet A (gatherRow js row.1)).getD 0) := by
      intro js hjs
      obtain ⟨cx, hcx⟩ := htotal js hjs
      rw [hcx]
      rfl
    have hpe := pointOut_eq hcorner
    obtain ⟨v, hvpe, hvout⟩ := omap_get? homap r row hrow
    have hveq : v = ((tuples (ndimR R)).map (fun js =>
        (ndGet A (gatherRow js row.1)).getD 0 * edgeWeightRow js row.2)).sum := by
      rw [hpe] at hvpe
      exact (Option.some_inj.mp hvpe).symm
    have hcv : c = v := by
      rw [hc] at hvout
      exact Option.some_inj.mp hvout
    have hcvals : cornerVals A (ndimR R) row.1
        = (tuples (ndimR R)).map
          (fun js => (ndGet A (gatherRow js row.1)).getD 0) :=
      filterMap_eq_map_of hcorner
    have hndsmem : row.2 ∈ cartesianProd R.norm_distances :=
      (List.of_mem_zip hrowmem).2
    have hts01 : ∀ t ∈ row.2, 0 ≤ t ∧ t ≤ 1 := by
      intro t ht
      obtain ⟨ndsk, hndsk, htk⟩ :=
        forall₂_mem_left (mem_cartesianProd hndsmem) t ht
      exact init_nds_bounds hinit ndsk hndsk t htk
    have hwnonneg : ∀ js ∈ tuples (ndimR R), 0 ≤ edgeWeightRow js row.2 :=
      fun js _ => edgeWeightRow_nonneg js hts01
    have htslen : row.2.length = ndimR R := by
      rw [(mem_cartesianProd hndsmem).length_eq,
        (init_lengths hinit).2.2.2.2, ← (init_lengths hinit).2.1]
    have hwsum :
        ((tuples (ndimR R)).map (fun js => edgeWeightRow js row.2)).sum = 1 := by
      rw [← htslen]
      exact sum_edgeWeightRow row.2
    refine ⟨?_, ?_, ?_⟩
    · intro x hx
      rw [hcvals] at hx
      simp only [List.mem_map] at hx
      obtain ⟨js, hjs, rfl⟩ := hx
      obtain ⟨cx, hcx⟩ := htotal js hjs
      have hgd : (ndGet A (gatherRow js row.1)).getD 0 = cx := by
        rw [hcx]
        rfl
      rw [hgd]
      exact ndGet_mem hcx
    · intro m hm
      have hm' : ∀ js ∈ tuples (ndimR R),
          m ≤ (ndGet A (gatherRow js row.1)).getD 0 := by
        intro js hjs
        apply hm
        rw [hcvals]
        exact List.mem_map.mpr ⟨js, hjs, rfl⟩
      have hlow := sum_map_mul_lower hwnonneg hm'
      rw [hwsum, mul_one] at hlow
      rw [hcv, hveq]
      exact hlow
    · intro M hM
      have hM' : ∀ js ∈ tuples (ndimR R),
          (ndGet A (gatherRow js row.1)).getD 0 ≤ M := by
        intro js hjs
        apply hM
        rw [hcvals]
        exact List.mem_map.mpr ⟨js, hjs, rfl⟩
      have hup := sum_map_mul_upper hwnonneg hM'
      rw [hwsum, mul_one] at hup
      rw [hcv, hveq]
      exact hup
  refine ⟨out, happ, hmain, ?_⟩
  intro hA c hcmem
  obtain ⟨r, hr⟩ := List.get?_of_mem hcmem
  have hrlen : r < out.length := by
    by_contra hcontra
    push_neg at hcontra
    rw [List.get?_eq_none.mpr hcontra] at hr
    exact Option.noConfusion hr
  have hrows : r < (pointRows R).length := by
    rw [← omap_length homap]
    exact hrlen
  obtain ⟨row, hrow⟩ : ∃ row, (pointRows R).get? r = some row := by
    rw [List.get?_eq_get hrows]
    exact ⟨_, rfl⟩
  obtain ⟨hmem', hlb, -⟩ := hmain r c row hr hrow
  exact hlb 0 (fun x hx => hA x (hmem' x hx))

/-- C3 witness: the bounds at a concrete construction and field. -/
theorem C3_convex_bounds_witness :
    ∃ out, applyR ⟨[[0, 1, 2]], [[0, 1, 2]], [[0, 0, 1]], [[0, 1, 1]]⟩
        ⟨[3], [0, 2, 1]⟩ =
        .ok ((⟨[[0, 1, 2]], [[0, 1, 2]], [[0, 0, 1]], [[0, 1, 1]]⟩ :
          Resampler).out_points, out) ∧
      (∀ r c row, out.get? r = some c →
        (pointRows ⟨[[0, 1, 2]], [[0, 1, 2]], [[0, 0, 1]], [[0, 1, 1]]⟩).get? r
          = some row →
        (∀ x ∈ cornerVals ⟨[3], [0, 2, 1]⟩
            (ndimR ⟨[[0, 1, 2]], [[0, 1, 2]], [[0, 0, 1]], [[0, 1, 1]]⟩) row.1,
          x ∈ ([0, 2, 1] : List ℚ)) ∧
        (∀ m, (∀ x ∈ cornerVals ⟨[3], [0, 2, 1]⟩
            (ndimR ⟨[[0, 1, 2]], [[0, 1, 2]], [[0, 0, 1]], [[0, 1, 1]]⟩) row.1,
          m ≤ x) → m ≤ c) ∧
        (∀ M, (∀ x ∈ cornerVals ⟨[3], [0, 2, 1]⟩
            (ndimR ⟨[[0, 1, 2]], [[0, 1, 2]], [[0, 0, 1]], [[0, 1, 1]]⟩) row.1,
          x ≤ M) → c ≤ M)) ∧
      ((∀ x ∈ ([0, 2, 1] : List ℚ), 0 ≤ x) → ∀ c ∈ out, 0 ≤ c) :=
  @C3_convex_bounds [[0, 1, 2]] [3]
    ⟨[[0, 1, 2]], [[0, 1, 2]], [[0, 0, 1]], [[0, 1, 1]]⟩
    (by with_unfolding_all rfl) ⟨[3], [0, 2, 1]⟩ rfl rfl

/-- C4: if the generated output sample points coincide exactly with the
input axis points, `apply` returns the original field unchanged. -/
theorem C4_identity {ips : List (List ℚ)} {os : List ℕ} {R : Resampler}
    (hinit : resamplerInit ips os = .ok R) (hcoincide : R.out_points = ips)
    {A : NDArr} (hsh : A.shape = inShape R)
    (hwf : A.data.length = A.shape.prod) :
    applyR R A = .ok (R.out_points, A.data) := by
  obtain ⟨out, happ, homap⟩ := apply_ok hinit hsh hwf
  obtain ⟨hin, hdim, hol, hll, hnl⟩ := init_lengths hinit
  obtain ⟨hoolen, hlolen, hndlen⟩ := init_inner_lengths hinit
  have hos : os = ips.map List.length := by rw [← hoolen, hcoincide]
  have hshape : A.shape = ips.map List.length := by rw [hsh, inShape, hin]
  have hshape' : A.shape = os := by rw [hshape, ← hos]
  have houtlen : out.length = os.prod := by
    rw [omap_length homap, pointRows, List.length_zip, length_cartesianProd,
      length_cartesianProd, hlolen, hndlen, min_self]
  have hdatalen : A.data.length = os.prod := by rw [hwf, hshape']
  have hoslen : os.length = ips.length := by rw [hos, List.length_map]
  have haxis : ∀ k p, ips.get? k = some p →
      R.lower_edge_inds.get? k = some (p.map (jIdx p)) ∧
      R.norm_distances.get? k = some (p.map (normDist p)) ∧
      ascendingB p = true ∧ 2 ≤ p.length := by
    intro k p hp
    obtain ⟨nn, a, b, hnn, hn2, hasc, hplen, ha, hb, hab, hok, hlk, hnk⟩ :=
      init_axis_facts hinit k p hp
    rw [hcoincide] at hok
    have hpeq : linspace a b nn = p := Option.some_inj.mp (hok.symm.trans hp)
    rw [hpeq] at hlk hnk
    exact ⟨hlk, hnk, hasc, hplen⟩
  suffices hout : out = A.data by rw [happ, hout]
  apply List.ext
  intro r
  by_cases hr : r < out.length
  case neg =>
    push_neg at hr
    rw [List.get?_eq_none.mpr hr, List.get?_eq_none.mpr (by omega)]
  case pos =>
  have hros : r < os.prod := by omega
  have hdsos := digits_forall₂ hros
  have hdslen : (digits os r).length = os.length := digits_length os r
  obtain ⟨row, hrow⟩ : ∃ row, (pointRows R).get? r = some row := by
    have hrows : r < (pointRows R).length := by
      rw [← omap_length homap]; omega
    rw [List.get?_eq_get hrows]
    exact ⟨_, rfl⟩
  obtain ⟨c, hpoc, hcout⟩ := omap_get? homap r row hrow
  have hrow' := hrow
  rw [pointRows] at hrow'
  obtain ⟨hrow1, hrow2⟩ := zip_get?_inv hrow'
  have hlowget : (cartesianProd R.lower_edge_inds).get? r
      = omap (fun pa => pa.1.get? pa.2)
        (R.lower_edge_inds.zip (digits os r)) := by
    have h2 := hdsos
    rw [← hlolen] at h2
    have h3 := cartesianProd_get? (List.forall₂_map_right_iff.mp h2)
    rwa [hlolen, flatIdxNat_digits hros] at h3
  have hndsget : (cartesianProd R.norm_distances).get? r
      = omap (fun pa => pa.1.get? pa.2)
        (R.norm_distances.zip (digits os r)) := by
    have h2 := hdsos
    rw [← hndlen] at h2
    have h3 := cartesianProd_get? (List.forall₂_map_right_iff.mp h2)
    rwa [hndlen, flatIdxNat_digits hros] at h3
  have hlowrow : omap (fun pa => pa.1.get? pa.2)
      (R.lower_edge_inds.zip (digits os r)) = some row.1 := by
    rw [← hlowget]; exact hrow1
  have hndsrow : omap (fun pa => pa.1.get? pa.2)
      (R.norm_distances.zip (digits os r)) = some row.2 := by
    rw [← hndsget]; exact hrow2
  have hentry : ∀ k dk p, (digits os r).get? k = some dk →
      ips.get? k = some p →
      ∃ v, p.get? dk = some v ∧
        row.1.get? k = some (jIdx p v) ∧
        row.2.get? k = some (normDist p v) := by
    intro k dk p hdk hp
    obtain ⟨hlk, hnk, hasc, hplen⟩ := haxis k p hp
    have hosk : os.get? k = some p.length := by
      rw [hos, List.get?_map, hp]
      rfl
    have hklt : k < (digits os r).length := by
      by_contra hcc
      push_neg at hcc
      rw [List.get?_eq_none.mpr hcc] at hdk
      exact Option.noConfusion hdk
    have hklt2 : k < os.length := by rw [← hdslen]; exact hklt
    have hdklt : dk < p.length := by
      obtain ⟨-, hfg⟩ := List.forall₂_iff_get.mp hdsos
      have hcomp := hfg k hklt hklt2
      rw [List.get?_eq_get hklt] at hdk
      rw [List.get?_eq_get hklt2] at hosk
      rw [Option.some_inj.mp hdk] at hcomp
      rw [Option.some_inj.mp hosk] at hcomp
      exact hcomp
    obtain ⟨v, hv⟩ : ∃ v, p.get? dk = some v := by
      rw [List.get?_eq_get hdklt]
      exact ⟨_, rfl⟩
    have hziplow : (R.lower_edge_inds.zip (digits os r)).get? k
        = some (p.map (jIdx p), dk) := zip_get?_some hlk hdk
    obtain ⟨y1, hy1, hy1'⟩ := omap_get? hlowrow k _ hziplow
    have hy1v : y1 = jIdx p v := by
      rw [List.get?_map, hv] at hy1
      exact (Option.some_inj.mp hy1).symm
    have hzipnds : (R.norm_distances.zip (digits os r)).get? k
        = some (p.map (normDist p), dk) := zip_get?_some hnk hdk
    obtain ⟨y2, hy2, hy2'⟩ := omap_get? hndsrow k _ hzipnds
    have hy2v : y2 = normDist p v := by
      rw [List.get?_map, hv] at hy2
      exact (Option.some_inj.mp hy2).symm
    refine ⟨v, hv, ?_, ?_⟩
    · rw [← hy1v]; exact hy1'
    · rw [← hy2v]; exact hy2'
  have hrow1len : row.1.length = ips.length := by
    rw [omap_length hlowrow, List.length_zip, hll, hdslen, hoslen, min_self]
  have hrow2len : row.2.length = ips.length := by
    rw [omap_length hndsrow, List.length_zip, hnl, hdslen, hoslen, min_self]
  have hts : row.2 = ((digits os r).map (fun d => decide (1 ≤ d))).map
      (fun b => if b then (1 : ℚ) else 0) := by
    rw [List.map_map]
    apply List.ext
    intro k
    by_cases hk : k < ips.length
    · obtain ⟨p, hp⟩ : ∃ p, ips.get? k = some p := by
        rw [List.get?_eq_get hk]; exact ⟨_, rfl⟩
      obtain ⟨dk, hdk⟩ : ∃ dk, (digits os r).get? k = some dk := by
        have hklt : k < (digits os r).length := by
          rw [hdslen, hoslen]; exact hk
        rw [List.get?_eq_get hklt]; exact ⟨_, rfl⟩
      obtain ⟨v, hv, -, hrow2k⟩ := hentry k dk p hdk hp
      obtain ⟨-, -, hasc, hplen⟩ := haxis k p hp
      obtain ⟨-, hnd⟩ := axis_identity hasc hplen hv
      rw [hrow2k, List.get?_map, hdk]
      simp only [Option.map_some']
      rw [hnd]
      by_cases hd1 : 1 ≤ dk <;> simp [hd1]
    · rw [List.get?_eq_none.mpr (by rw [hrow2len]; omega),
        List.get?_eq_none.mpr
          (by rw [List.length_map, hdslen, hoslen]; omega)]
  have hgather : gatherRow ((digits os r).map (fun d => decide (1 ≤ d))) row.1
      = (digits os r).map (fun (d : ℕ) => (d : ℤ)) := by
    apply List.ext
    intro k
    by_cases hk : k < ips.length
    · obtain ⟨p, hp⟩ : ∃ p, ips.get? k = some p := by
        rw [List.get?_eq_get hk]; exact ⟨_, rfl⟩
      obtain ⟨dk, hdk⟩ : ∃ dk, (digits os r).get? k = some dk := by
        have hklt : k < (digits os r).length := by
          rw [hdslen, hoslen]; exact hk
        rw [List.get?_eq_get hklt]; exact ⟨_, rfl⟩
      obtain ⟨v, hv, hrow1k, -⟩ := hentry k dk p hdk hp
      obtain ⟨-, -, hasc, hplen⟩ := haxis k p hp
      obtain ⟨hjid, -⟩ := axis_identity hasc hplen hv
      have hbsk : ((digits os r).map (fun d => decide (1 ≤ d))).get? k
          = some (decide (1 ≤ dk)) := by
        rw [List.get?_map, hdk]; rfl
      rw [gatherRow, zipWith_get?_some hbsk hrow1k, List.get?_map, hdk]
      simp only [Option.map_some', Option.some_inj]
      rw [hjid]
      by_cases hd1 : 1 ≤ dk
      · rw [if_pos hd1, if_pos (decide_eq_true hd1)]
        omega
      · rw [if_neg hd1, if_neg (fun h => hd1 (of_decide_eq_true h))]
        omega
    · rw [List.get?_eq_none.mpr ?_, List.get?_eq_none.mpr ?_]
      · rw [List.length_map, hdslen, hoslen]; omega
      · rw [gatherRow, List.length_zipWith, List.length_map, hdslen, hoslen,
          hrow1len, min_self]
        omega
  have hrowmem : row ∈ pointRows R := List.get?_mem hrow
  have htotal := apply_gather_total hinit hsh hwf row hrowmem
  have hcorner : ∀ js ∈ tuples (ndimR R),
      ndGet A (gatherRow js row.1)
        = some ((ndGet A (gatherRow js row.1)).getD 0) := by
    intro js hjs
    obtain ⟨cx, hcx⟩ := htotal js hjs
    rw [hcx]
    rfl
  have hpe := pointOut_eq hcorner
  have hceq : ((tuples (ndimR R)).map (fun js =>
      (ndGet A (gatherRow js row.1)).getD 0 * edgeWeightRow js row.2)).sum
      = c := Option.some_inj.mp (hpe.symm.trans hpoc)
  have hbslen : ((digits os r).map (fun d => decide (1 ≤ d))).length
      = ndimR R := by
    rw [List.length_map, hdslen, hoslen, hdim]
  have hsel := select_sum ((digits os r).map (fun d => decide (1 ≤ d)))
    (fun js => (ndGet A (gatherRow js row.1)).getD 0)
  rw [hbslen, ← hts] at hsel
  have hflat : flatIdxNat A.shape (digits os r) = r := by
    rw [hshape']
    exact flatIdxNat_digits hros
  have hdsshape : List.Forall₂ (fun i m => i < m) (digits os r) A.shape := by
    rw [hshape']
    exact hdsos
  have hgbs : (ndGet A
      (gatherRow ((digits os r).map (fun d => decide (1 ≤ d))) row.1)).getD 0
      = (A.data.get? r).getD 0 := by
    rw [hgather, ndGet_natCast hdsshape, hflat]
  obtain ⟨dv, hdv⟩ : ∃ dv, A.data.get? r = some dv := by
    rw [List.get?_eq_get (by omega)]
    exact ⟨_, rfl⟩
  have hcdv : c = dv := by
    rw [← hceq, hsel, hgbs, hdv]
    rfl
  rw [hcout, hdv, hcdv]

/-- C4 witness: resampling a field onto its own grid returns it unchanged. -/
theorem C4_identity_witness :
    applyR ⟨[[0, 1, 2]], [[0, 1, 2]], [[0, 0, 1]], [[0, 1, 1]]⟩
      ⟨[3], [5, 7, 3]⟩ =
      .ok ((⟨[[0, 1, 2]], [[0, 1, 2]], [[0, 0, 1]], [[0, 1, 1]]⟩ :
        Resampler).out_points, [5, 7, 3]) :=
  @C4_identity [[0, 1, 2]] [3]
    ⟨[[0, 1, 2]], [[0, 1, 2]], [[0, 0, 1]], [[0, 1, 1]]⟩
    (by with_unfolding_all rfl) rfl ⟨[3], [5, 7, 3]⟩ rfl rfl

end NB
